import Mathlib

/-!
Verification of the heap allocator in `mymalloc/allocator.c`.

The heap is modelled as a byte-addressed memory (`Nat → Nat`, one byte per
address) together with the allocator's global variables (`heap_lo`, `heap_hi`,
the bin array, `prev_alloc`) and the region provider's break pointer and
capacity.  All header fields are 32-bit little-endian loads and stores at the
exact offsets the C code uses (`prev_size` at offset 0, `size` at offset 4).
The C bitwise operations on `uint32_t` are written arithmetically:
`x & ~INFO_BITS` (with `INFO_BITS = 1`) is `x % 2^32 - x % 2`,
`x & FREE_BIT` is `x % 2`, and `(x & ~FREE_BIT) | f` for `f ∈ {0,1}` is
`x - x % 2 + f`; these are identical on the values involved.

The intrusive doubly-linked free lists are represented by the list of block
addresses each bin holds, in list order (head of the C list = head of the Lean
list).  `push` is the head insertion of `allocator.c:244`, `pull` the first-fit
scan-and-unlink of `allocator.c:264`, and `extract` the O(1) unlink of
`allocator.c:302`, which on a well-formed list removes exactly the one
occurrence of the block from its bin; the pointer surgery on the `next`/`prev`
fields stored inside free payloads is absorbed into the list representation
(no spec claim reads the payload bytes of a free block).
-/

def ALIGNMENT : Nat := 8

def HEADER_SIZE : Nat := 8

def LINKS_SIZE : Nat := 16

def MIN_BLOCK_POW : Nat := 4

def MAX_BLOCK_POW : Nat := 29

def NUM_BINS : Nat := MAX_BLOCK_POW - MIN_BLOCK_POW

def SHRINK_MIN_SIZE : Nat := 24

/-- 2^32, the modulus of `uint32_t` arithmetic. -/
def U32 : Nat := 4294967296

/-- 2^64, the modulus of `size_t` and pointer arithmetic. -/
def U64 : Nat := 18446744073709551616

/-- The sentinel `(block_t* )(-1)` stored in `prev_alloc` before any block exists. -/
def PREV_ALLOC_INIT : Nat := U64 - 1

/-- `ALIGN(size) = ((size) + 7) & ~7` on `size_t`: round up to a multiple of 8. -/
def ALIGN (s : Nat) : Nat := (s + 7) % U64 - (s + 7) % U64 % 8

/-- `CACHE_ALIGN(size) = ((size) + 63) & ~63` on 64-bit values. -/
def CACHE_ALIGN (s : Nat) : Nat := (s + 63) % U64 - (s + 63) % U64 % 64

/-- `round_up(size) = ALIGN(size + HEADER_SIZE)`. -/
def round_up (s : Nat) : Nat := ALIGN (s + HEADER_SIZE)

/-- `MIN_STORAGE = round_up(LINKS_SIZE)` (= 24). -/
def MIN_STORAGE : Nat := round_up LINKS_SIZE

/-- Binary bit length with explicit fuel (so that the kernel can evaluate it);
with fuel at least `log2 x + 1` this is the position of the highest set bit
plus one, i.e. `floor(log2 x) + 1` for `x ≠ 0`, and 0 for `x = 0`. -/
def bits32 : Nat → Nat → Nat
  | 0, _ => 0
  | fuel + 1, x => if x = 0 then 0 else bits32 fuel (x / 2) + 1

/-- `__builtin_clz` on a 32-bit value: `31 - floor(log2 x)` for `x ≠ 0`.  The C
intrinsic is undefined at 0; this model picks 32 (the `lzcnt` behaviour), and no
theorem below relies on the value at 0. -/
def clz32 (x : Nat) : Nat := 32 - bits32 32 x

theorem bits32_zero (fuel : Nat) : bits32 fuel 0 = 0 := by
  cases fuel <;> simp [bits32]

theorem bits32_eq {fuel x : Nat} (hf : x < 2 ^ fuel) (hx : x ≠ 0) :
    bits32 fuel x = Nat.log2 x + 1 := by
  induction fuel generalizing x with
  | zero =>
    simp only [pow_zero] at hf
    omega
  | succ f ih =>
    unfold bits32
    rw [if_neg hx]
    by_cases h2 : x / 2 = 0
    · have hx1 : x = 1 := by omega
      subst hx1
      norm_num [bits32_zero, Nat.log2]
    · have hdivlt : x / 2 < 2 ^ f := by
        rw [pow_succ] at hf
        omega
      rw [ih hdivlt h2]
      have hxx : 2 ≤ x := by omega
      have : Nat.log2 (x / 2) = Nat.log2 x - 1 := by
        rw [Nat.log2_eq_log_two, Nat.log2_eq_log_two, Nat.log_div_base]
      have hlog1 : 1 ≤ Nat.log2 x := (Nat.le_log2 (by omega)).2 (by omega)
      omega

/-- `block_bin(size) = 32 - __builtin_clz(size >> MIN_BLOCK_POW)`
(`allocator.c:236`).  The parameter is `uint32_t`, hence the `% U32`;
`>> MIN_BLOCK_POW` is division by `2^4`. -/
def block_bin (size : Nat) : Nat := 32 - clz32 (size % U32 / 2 ^ MIN_BLOCK_POW)

/-- `size & ~INFO_BITS` on `uint32_t`: clear bit 0 (and truncate to 32 bits). -/
def maskInfo (s : Nat) : Nat := s % U32 - s % 2

/-- Store a 32-bit little-endian value at byte address `a`. -/
def store32 (m : Nat → Nat) (a v : Nat) : Nat → Nat := fun x =>
  if x = a then v % 256
  else if x = a + 1 then v / 256 % 256
  else if x = a + 2 then v / 65536 % 256
  else if x = a + 3 then v / 16777216 % 256
  else m x

/-- Load a 32-bit little-endian value from byte address `a`. -/
def load32 (m : Nat → Nat) (a : Nat) : Nat :=
  m a % 256 + m (a + 1) % 256 * 256 + m (a + 2) % 256 * 65536 +
    m (a + 3) % 256 * 16777216

/-- The allocator state: the byte memory, the globals `heap_lo`, `heap_hi`,
`bins`, `prev_alloc` of `allocator.c`, and the region provider's break pointer
`brk` and capacity `cap`. -/
structure Heap where
  mem : Nat → Nat
  lo : Nat
  hi : Nat
  brk : Nat
  cap : Nat
  bins : List (List Nat)
  prevAlloc : Nat

/-- The raw `size` field of the block at address `b` (offset 4, `uint32_t`). -/
def sizeField (h : Heap) (b : Nat) : Nat := load32 h.mem (b + 4)

/-- The raw `prev_size` field of the block at address `b` (offset 0). -/
def prevSizeField (h : Heap) (b : Nat) : Nat := load32 h.mem b

/-- `block_size(block) = block->size & ~INFO_BITS`. -/
def block_size (h : Heap) (b : Nat) : Nat := sizeField h b - sizeField h b % 2

/-- `block_prev_size(block) = block->prev_size & ~INFO_BITS`. -/
def block_prev_size (h : Heap) (b : Nat) : Nat :=
  prevSizeField h b - prevSizeField h b % 2

/-- `block_is_free(block) = block->size & FREE_BIT`. -/
def block_is_free (h : Heap) (b : Nat) : Bool := sizeField h b % 2 == 1

/-- `prev_is_free(block) = block->prev_size & FREE_BIT`. -/
def prev_is_free (h : Heap) (b : Nat) : Bool := prevSizeField h b % 2 == 1

/-- `right(block) = (uint8_t* )block + block_size(block)`. -/
def right (h : Heap) (b : Nat) : Nat := b + block_size h b

/-- `left(block) = (uint8_t* )block - block_prev_size(block)`. -/
def left (h : Heap) (b : Nat) : Nat := b - block_prev_size h b

/-- The free list held by bin `i`. -/
def binsGet (h : Heap) (i : Nat) : List Nat := h.bins.getD i []

/-- Replace the free list of bin `i` (out-of-range writes, which are undefined
behaviour in C, are dropped by `List.set`). -/
def binsSet (h : Heap) (i : Nat) (l : List Nat) : Heap :=
  { h with bins := h.bins.set i l }

/-- Modelled from the spec: the region provider (`mem_sbrk` of `memlib`, not
part of `src/`).  `region_grow(delta)` extends the region by `delta` bytes and
returns the old break, or returns `(void* )(-1)` when it refuses the extension;
the model refuses exactly when the new break would exceed a fixed capacity
`cap`. -/
def mem_sbrk (h : Heap) (delta : Nat) : Nat × Heap :=
  if h.brk + delta ≤ h.cap then (h.brk, { h with brk := h.brk + delta })
  else (U64 - 1, h)

/-- `block_set_free` (`allocator.c:203`): set or clear the `FREE_BIT` of the
size field, then mirror the whole field into the right neighbour's `prev_size`
if that neighbour is below `heap_hi`. -/
def block_set_free (h : Heap) (b f : Nat) : Heap :=
  let h1 := { h with mem := store32 h.mem (b + 4) (sizeField h b - sizeField h b % 2 + f) }
  if right h1 b < h1.hi then
    { h1 with mem := store32 h1.mem (right h1 b) (sizeField h1 b) }
  else h1

/-- `block_set_size` (`allocator.c:215`): `mask_and_set_size` keeps the
`INFO_BITS` of the old field and installs the new size, then the whole field is
mirrored into the right neighbour's `prev_size` if it is below `heap_hi`. -/
def block_set_size (h : Heap) (b size : Nat) : Heap :=
  let h1 := { h with mem := store32 h.mem (b + 4) (sizeField h b % 2 + maskInfo size) }
  if right h1 b < h1.hi then
    { h1 with mem := store32 h1.mem (right h1 b) (sizeField h1 b) }
  else h1

/-- `block_update_last` (`allocator.c:227`): cache the block as `prev_alloc`
when its right edge is exactly `heap_hi`. -/
def block_update_last (h : Heap) (b : Nat) : Heap :=
  if right h b = h.hi then { h with prevAlloc := b } else h

/-- `block_init` (`allocator.c:184`): store the size (the block is born
allocated), and copy the previous frontier block's raw `size` field into this
block's `prev_size` (or 0 if this is the first block ever). -/
def block_init (h : Heap) (b size : Nat) : Heap :=
  let m1 := store32 h.mem (b + 4) size
  let m2 :=
    if h.prevAlloc = PREV_ALLOC_INIT then store32 m1 b 0
    else store32 m1 b (load32 m1 (h.prevAlloc + 4))
  { h with mem := m2 }

/-- `push` (`allocator.c:244`): mark the block free and insert it at the head
of the bin selected by `block_bin` of its size. -/
def push (h : Heap) (b : Nat) : Heap :=
  let bin := block_bin (block_size h b)
  let h1 := block_set_free h b 1
  binsSet h1 bin (b :: binsGet h1 bin)

/-- The scan of `pull` (`allocator.c:264`): find the first block in the list
whose size is at least `size` and unlink it. -/
def pull_scan (h : Heap) (size : Nat) : List Nat → Option Nat × List Nat
  | [] => (none, [])
  | b :: rest =>
    if size ≤ block_size h b then (some b, rest)
    else
      let r := pull_scan h size rest
      (r.1, b :: r.2)

/-- `pull` (`allocator.c:264`): first-fit removal from bin `bin`; the returned
block is marked not free (which also refreshes its right neighbour's
`prev_size`). -/
def pull (h : Heap) (size bin : Nat) : Option Nat × Heap :=
  match pull_scan h size (binsGet h bin) with
  | (none, _) => (none, h)
  | (some b, rest) => (some b, block_set_free (binsSet h bin rest) b 0)

/-- `extract` (`allocator.c:302`): remove the block from the free list it is
in.  On a well-formed list this is removal of its single occurrence from the
bin chosen by `block_bin` of its size. -/
def extract (h : Heap) (b : Nat) : Heap :=
  let bin := block_bin (block_size h b)
  binsSet h bin ((binsGet h bin).erase b)

/-- `coalesce` (`allocator.c:326`): absorb a free right neighbour into the
block, then either let a free left neighbour absorb the block and push the
result, or push the block itself. -/
def coalesce (h : Heap) (b : Nat) : Heap :=
  let r := right h b
  let h1 :=
    if r < h.hi ∧ block_is_free h r = true then
      let hA := extract h r
      let hB := block_set_size hA b (block_size hA b + block_size hA r)
      block_update_last hB b
    else h
  let l := left h1 b
  if h1.lo ≤ l ∧ block_is_free h1 l = true then
    let hA := extract h1 l
    let hB := block_set_size hA l (block_size hA l + block_size hA b)
    let hC := block_update_last hB l
    push hC l
  else push h1 b

/-- `shrink` (`allocator.c:363`): if the leftover is at least
`ALIGN(SHRINK_MIN_SIZE)`, cut the block down to `size`, carve a leftover block
immediately to its right, and coalesce the leftover.  The subtraction is
`uint32_t` arithmetic; under the function's own precondition
(`assert(size <= block_size(block))`) it never wraps. -/
def shrink (h : Heap) (b size : Nat) : Heap :=
  let size_new := (block_size h b + (U32 - size % U32)) % U32
  if ALIGN SHRINK_MIN_SIZE ≤ size_new then
    let h1 := block_set_size h b size
    let bn := right h1 b
    let h2 := block_set_size h1 bn size_new
    let h3 := block_update_last h2 bn
    coalesce h3 bn
  else h

/-- `my_init` (`allocator.c:392`): zero the bins, pad the break to the next
cache line, and set `heap_lo = heap_hi` to the padded break;
`prev_alloc` becomes the sentinel. -/
def my_init (h : Heap) : Heap :=
  let h0 := { h with bins := List.replicate NUM_BINS [] }
  let size := CACHE_ALIGN h0.brk - h0.brk
  let r := mem_sbrk h0 size
  { r.2 with lo := (r.1 + size) % U64, hi := (r.1 + size) % U64,
             prevAlloc := PREV_ALLOC_INIT }

/-- The bin loop of `my_malloc` (`allocator.c:418`):
`for (bin = block_bin(size); bin < NUM_BINS; bin++)` try `pull`.  The `fuel`
argument counts the remaining iterations structurally; called with
`fuel = NUM_BINS` it performs exactly the C iteration. -/
def tryBins (h : Heap) (size : Nat) : Nat → Nat → Option Nat × Heap
  | _, 0 => (none, h)
  | bin, fuel + 1 =>
    if bin < NUM_BINS then
      match pull h size bin with
      | (some b, h1) => (some b, h1)
      | (none, h1) => tryBins h1 size (bin + 1) fuel
    else (none, h)

/-- The fall-through tail of `my_malloc` (`allocator.c:439`): append a new
block at the break.  Returns null exactly when `mem_sbrk` returned
`(void* )(-1)`. -/
def my_malloc_append (h : Heap) (size : Nat) : Option Nat × Heap :=
  let r := mem_sbrk h size
  if r.1 = U64 - 1 then (none, r.2)
  else
    let h2 := { r.2 with hi := (r.1 + size) % U64 }
    let h3 := block_init h2 r.1 size
    (some (r.1 + HEADER_SIZE), { h3 with prevAlloc := r.1 })

/-- The frontier-extension path of `my_malloc` (`allocator.c:426`): the last
block is free, so extract it, grow the break by the missing amount, bump
`heap_hi` by `(uint8_t* )mem_sbrk(diff) + diff`, and store the enlarged size
directly (clearing the free bit).  Note the missing failure check on
`mem_sbrk`: on refusal the returned `(void* )(-1)` still flows into `heap_hi`
and a non-null payload is returned. -/
def my_malloc_frontier (h : Heap) (size : Nat) : Option Nat × Heap :=
  let h1 := extract h h.prevAlloc
  let diff := ALIGN ((size + (U64 - block_size h1 h.prevAlloc)) % U64)
  let r := mem_sbrk h1 diff
  let h3 := { r.2 with hi := (r.1 + diff) % U64 }
  let h4 := { h3 with
    mem := store32 h3.mem (h.prevAlloc + 4) (block_size h3 h.prevAlloc + diff) }
  (some (h.prevAlloc + HEADER_SIZE), h4)

/-- `my_malloc` (`allocator.c:410`): round the request (small requests get
`MIN_STORAGE`), try the bins, then the free-frontier extension, then append a
fresh block at the break. -/
def my_malloc (h : Heap) (size0 : Nat) : Option Nat × Heap :=
  let size := if size0 < LINKS_SIZE then MIN_STORAGE else round_up size0
  if h.hi ≠ h.lo then
    match tryBins h size (block_bin size) NUM_BINS with
    | (some b, h1) => (some (b + HEADER_SIZE), shrink h1 b size)
    | (none, h1) =>
      if block_is_free h1 h1.prevAlloc = true then my_malloc_frontier h1 size
      else my_malloc_append h1 size
  else my_malloc_append h size

/-- `my_free` (`allocator.c:456`): null is a no-op, otherwise coalesce the
block of the payload (`block(ptr) = ptr - HEADER_SIZE`). -/
def my_free (h : Heap) (p : Nat) : Heap :=
  if p = 0 then h else coalesce h (p - HEADER_SIZE)

/-- `memcpy(ptr_new, ptr, n)` on the heap bytes.  C's `memcpy` requires the
ranges to be disjoint (they are at the one call site, which copies between two
distinct blocks); the model reads all source bytes from the pre-copy memory. -/
def heap_memcpy (h : Heap) (dst src n : Nat) : Heap :=
  { h with mem := fun x =>
      if dst ≤ x ∧ x < dst + n then h.mem (src + (x - dst)) else h.mem x }

/-- `my_realloc` (`allocator.c:464`): null pointer means `malloc`, zero size
means `free`; otherwise compare the rounded size with the block's size and
either return in place, shrink, extend at the frontier (the `mem_sbrk` return
value is ignored there), or allocate-copy-free. -/
def my_realloc (h : Heap) (p size : Nat) : Option Nat × Heap :=
  if p = 0 then my_malloc h size
  else if size = 0 then (none, my_free h p)
  else
    let size_new := round_up size % U32
    let b := p - HEADER_SIZE
    if size_new = block_size h b then (some p, h)
    else if size_new < block_size h b then (some p, shrink h b size_new)
    else
      let diff := (size_new + (U32 - block_size h b)) % U32
      if right h b = h.hi then
        let r := mem_sbrk h diff
        let h2 := { r.2 with hi := (r.2.hi + diff) % U64 }
        (some p, block_set_size h2 b size_new)
      else
        match my_malloc h size with
        | (none, h1) => (none, h1)
        | (some q, h1) =>
          let h2 := heap_memcpy h1 q p ((block_size h1 b + (U64 - HEADER_SIZE)) % U64)
          (some q, my_free h2 p)

/-- A concrete one-block heap used by witnesses: a 24-byte allocated block at
address 64, `heap_lo = 64`, `heap_hi = brk = cap = 120`, empty bins. -/
def hC4 : Heap :=
  ⟨fun a => if a = 68 then 24 else 0, 64, 120, 120, 120,
    List.replicate NUM_BINS [], 64⟩

/-- A reachable failing input for the frontier-extension path: the heap after
`init; p = malloc(1); free(p)` with the region capacity already exhausted
(`cap = 88`).  One free 24-byte block at address 64 (size field `24 | FREE_BIT`
= 25), sitting in bin `block_bin 24 = 1`, and `prev_alloc = 64`. -/
def hC2 : Heap :=
  ⟨fun a => if a = 68 then 25 else 0, 64, 88, 88, 88,
    (List.replicate NUM_BINS ([] : List Nat)).set 1 [64], 64⟩

/-- An empty heap (`heap_lo = heap_hi = 64`) whose region capacity is already
exhausted, so the append-new path's `mem_sbrk` refuses. -/
def hEmpty : Heap :=
  ⟨fun _ => 0, 64, 64, 64, 64, List.replicate NUM_BINS [], PREV_ALLOC_INIT⟩

/-- A one-block heap for the shrink witness: an allocated 64-byte block at 64
filling the whole heap `[64, 128)`. -/
def hC10 : Heap :=
  ⟨fun a => if a = 68 then 64 else 0, 64, 128, 128, 128,
    List.replicate NUM_BINS [], 64⟩

/-- The alignment facts C6 needs: the break is 8-aligned, the cached frontier
block is 8-aligned once a block exists, and every block address held in a bin
is 8-aligned. -/
def AlignedHeap (h : Heap) : Prop :=
  h.brk % ALIGNMENT = 0 ∧ (h.hi ≠ h.lo → h.prevAlloc % ALIGNMENT = 0) ∧
    ∀ l ∈ h.bins, ∀ b ∈ l, b % ALIGNMENT = 0

/-- A heap for the C6 witness: one allocated 64-byte block at 64, empty bins,
room to grow (`cap = 4096`). -/
def hC6 : Heap :=
  ⟨fun a => if a = 68 then 64 else 0, 64, 128, 128, 4096,
    List.replicate NUM_BINS [], 64⟩

/-- The chain of block addresses from `s` to `e`: `chainSeg h ts s e` holds
when `ts` lists consecutive block addresses starting at `s`, each with an
8-aligned size of at least `MIN_STORAGE` (= 24), ending exactly at `e`.
This is the tiling of `[heap_lo, heap_hi)` from spec §3, checked blockwise as
the debug validator `__valid` does. -/
def chainSeg (h : Heap) : List Nat → Nat → Nat → Bool
  | [], s, e => s == e
  | b :: rest, s, e =>
    b == s && Nat.ble 24 (block_size h b) && (block_size h b % 8 == 0) &&
      chainSeg h rest (s + block_size h b) e

/-- No two adjacent blocks are both free (the coalescing invariant). -/
def NoAdjFree (h : Heap) (l : List Nat) : Prop :=
  List.Chain' (fun x y =>
    ¬ (block_is_free h x = true ∧ block_is_free h y = true)) l

/-- Each block's `prev_size` field mirrors its left neighbour's raw size
field. -/
def MirrorOk (h : Heap) (l : List Nat) : Prop :=
  List.Chain' (fun x y => prevSizeField h y = sizeField h x) l

/-- The first block's `prev_size` field is 0 (written by `block_init` for the
block born at `heap_lo` and never overwritten, since only right neighbours'
`prev_size` fields are ever updated). -/
def HeadZero (h : Heap) (l : List Nat) : Prop :=
  ∀ b ∈ l.head?, prevSizeField h b = 0

/-- The tiling after `my_free(payload of a)` given the tiling `ts1 ++ a :: ts2`
before: a free right neighbour is absorbed into `a`, and a free left neighbour
absorbs `a`. -/
def tsAfterFree (h : Heap) (ts1 : List Nat) (a : Nat) (ts2 : List Nat) :
    List Nat :=
  let ts2' := if right h a < h.hi ∧ block_is_free h (right h a) = true
    then ts2.tail else ts2
  if h.lo ≤ left h a ∧ block_is_free h (left h a) = true then ts1 ++ ts2'
  else ts1 ++ a :: ts2'

/-- The right-merge stage of `coalesce` (`allocator.c:330-338`). -/
def coalesce_right (h : Heap) (b : Nat) : Heap :=
  let r := right h b
  if r < h.hi ∧ block_is_free h r = true then
    let hA := extract h r
    let hB := block_set_size hA b (block_size hA b + block_size hA r)
    block_update_last hB b
  else h

/-- The left-merge-or-push stage of `coalesce` (`allocator.c:341-354`). -/
def coalesce_left (h : Heap) (b : Nat) : Heap :=
  let l := left h b
  if h.lo ≤ l ∧ block_is_free h l = true then
    let hA := extract h l
    let hB := block_set_size hA l (block_size hA l + block_size hA b)
    let hC := block_update_last hB l
    push hC l
  else push h b

/-- The left edge of the region that `coalesce` turns into one free block:
the left neighbour when it is absorbed, the block itself otherwise. -/
def freedLo (h : Heap) (a : Nat) : Nat :=
  if h.lo ≤ left h a ∧ block_is_free h (left h a) = true then left h a else a

/-- The right edge of the region that `coalesce` turns into one free block:
the end of the right neighbour when it is absorbed, the block's own end
otherwise. -/
def freedHi (h : Heap) (a : Nat) : Nat :=
  if right h a < h.hi ∧ block_is_free h (right h a) = true then
    right h a + block_size h (right h a)
  else right h a

/-- A two-block heap for the C3 witness: allocated blocks at 64 (size 24) and
88 (size 24) tiling `[64, 112)`; 88's `prev_size` mirrors 64's header. -/
def hC3 : Heap :=
  ⟨fun a => if a = 68 then 24 else if a = 88 then 24 else
      if a = 92 then 24 else 0,
    64, 112, 112, 112, List.replicate NUM_BINS [], 88⟩

-- ===================== theorems =====================

theorem store32_apply_out {m : Nat → Nat} {a v x : Nat}
    (hx : x < a ∨ a + 4 ≤ x) : store32 m a v x = m x := by
  unfold store32
  rw [if_neg, if_neg, if_neg, if_neg] <;> omega

theorem load32_store32_disj {m : Nat → Nat} {a v b : Nat}
    (hb : b + 4 ≤ a ∨ a + 4 ≤ b) : load32 (store32 m a v) b = load32 m b := by
  unfold load32
  rw [store32_apply_out (by omega), store32_apply_out (by omega),
    store32_apply_out (by omega), store32_apply_out (by omega)]

theorem load32_store32_self {m : Nat → Nat} {a v : Nat} :
    load32 (store32 m a v) a = v % U32 := by
  unfold load32 store32
  rw [if_pos rfl]
  rw [if_neg (by omega), if_pos rfl]
  rw [if_neg (by omega), if_neg (by omega), if_pos rfl]
  rw [if_neg (by omega), if_neg (by omega), if_neg (by omega), if_pos rfl]
  unfold U32
  omega

theorem load32_lt {m : Nat → Nat} {a : Nat} : load32 m a < U32 := by
  unfold load32 U32
  omega

theorem block_bin_eq {s : Nat} (h16 : 16 ≤ s) (h32 : s < U32) :
    block_bin s = Nat.log2 s - MIN_BLOCK_POW + 1 := by
  have hmod : s % U32 = s := Nat.mod_eq_of_lt h32
  have hdiv : s % U32 / 2 ^ MIN_BLOCK_POW = s / 16 := by
    rw [hmod]; norm_num [MIN_BLOCK_POW]
  have hne : s / 16 ≠ 0 := by
    have : 1 ≤ s / 16 := (Nat.one_le_div_iff (by norm_num)).2 h16
    omega
  have hlog16 : Nat.log2 (s / 16) = Nat.log2 s - 4 := by
    have h2 : (16 : Nat) = 2 * 2 * 2 * 2 := by norm_num
    rw [Nat.log2_eq_log_two, Nat.log2_eq_log_two, h2, ← Nat.div_div_eq_div_mul,
      ← Nat.div_div_eq_div_mul, ← Nat.div_div_eq_div_mul, Nat.log_div_base,
      Nat.log_div_base, Nat.log_div_base, Nat.log_div_base]
    omega
  have hge : 4 ≤ Nat.log2 s := (Nat.le_log2 (by omega)).2 (by norm_num; omega)
  have hlt : Nat.log2 s < 32 := (Nat.log2_lt (by omega)).2 (by
    have : U32 = 2 ^ 32 := by norm_num [U32]
    omega)
  have hblt : s / 16 < 2 ^ 32 := by
    have : U32 = 2 ^ 32 := by norm_num [U32]
    omega
  have hb : bits32 32 (s / 16) = Nat.log2 (s / 16) + 1 := bits32_eq hblt hne
  unfold block_bin clz32
  rw [hdiv, hb, hlog16]
  unfold MIN_BLOCK_POW
  omega

theorem block_bin_lt_iff {s : Nat} (h16 : 16 ≤ s) (h32 : s < U32) :
    (block_bin s < NUM_BINS ↔ s < 2 ^ (MAX_BLOCK_POW - 1)) := by
  rw [block_bin_eq h16 h32]
  have hge : 4 ≤ Nat.log2 s := (Nat.le_log2 (by omega)).2 (by norm_num; omega)
  have h28 : Nat.log2 s < 28 ↔ s < 2 ^ 28 := Nat.log2_lt (by omega)
  have hnum : NUM_BINS = 25 := by norm_num [NUM_BINS, MAX_BLOCK_POW, MIN_BLOCK_POW]
  have hpow : 2 ^ (MAX_BLOCK_POW - 1) = 2 ^ 28 := by norm_num [MAX_BLOCK_POW]
  have hmb : MIN_BLOCK_POW = 4 := rfl
  rw [hnum, hpow, hmb]
  constructor
  · intro hlt
    exact h28.1 (by omega)
  · intro hs
    have := h28.2 hs
    omega

/-- C1 counterexample.  The claim says `block_bin` returns
`floor(log2 size) - MIN_BLOCK_POW` clamped into `[0, NUM_BINS)`, so that
`block_bin 16 = 0` and every result is a valid bin index.  In the code,
`block_bin 16 = 1` (the classifier is off by one from the claimed formula) and
`block_bin (2^28) = 25 = NUM_BINS`, which is not a valid index into `bins`
(there is no clamping at all). -/
theorem c1_block_bin_counterexample :
    block_bin 16 ≠ Nat.log2 16 - MIN_BLOCK_POW ∧
      ¬ block_bin (2 ^ 28) < NUM_BINS := by
  have h4 : Nat.log2 16 = 4 := by
    have h16 : (16 : Nat) = 2 ^ 4 := by norm_num
    rw [Nat.log2_eq_log_two, h16, Nat.log_pow (by norm_num)]
  have hb : block_bin 16 = 1 := by decide
  constructor
  · rw [hb, h4]
    norm_num [MIN_BLOCK_POW]
  · decide

/-- C1 (amended).  For every `uint32` size of at least `1 << MIN_BLOCK_POW`,
the bin classifier returns `floor(log2 size) - MIN_BLOCK_POW + 1`, with no
clamping: the result is a valid index into the `NUM_BINS`-element bin array
exactly when the size is below `1 << (MAX_BLOCK_POW - 1)`.  (Sizes below
`1 << MIN_BLOCK_POW` feed 0 to `__builtin_clz`, which is undefined.) -/
theorem c1_block_bin_classifier {s : Nat}
    (h16 : 2 ^ MIN_BLOCK_POW ≤ s) (h32 : s < U32) :
    block_bin s = Nat.log2 s - MIN_BLOCK_POW + 1 ∧
      (block_bin s < NUM_BINS ↔ s < 2 ^ (MAX_BLOCK_POW - 1)) := by
  have h16 : 16 ≤ s := by
    have : (2 : Nat) ^ MIN_BLOCK_POW = 16 := by norm_num [MIN_BLOCK_POW]
    omega
  exact ⟨block_bin_eq h16 h32, block_bin_lt_iff h16 h32⟩

/-- Witness for C1: the classifier evaluated at the concrete size 64. -/
theorem c1_block_bin_classifier_witness :
    2 ^ MIN_BLOCK_POW ≤ 64 ∧ 64 < U32 ∧
      (block_bin 64 = Nat.log2 64 - MIN_BLOCK_POW + 1 ∧
        (block_bin 64 < NUM_BINS ↔ 64 < 2 ^ (MAX_BLOCK_POW - 1))) :=
  ⟨by decide, by decide, c1_block_bin_classifier (by decide) (by decide)⟩

theorem sizeField_lt {h : Heap} {b : Nat} : sizeField h b < U32 := by
  unfold sizeField
  exact load32_lt

theorem block_size_lt {h : Heap} {b : Nat} : block_size h b < U32 := by
  have := sizeField_lt (h := h) (b := b)
  unfold block_size
  omega

/-- C8.  `my_realloc(NULL, n)` is exactly `my_malloc(n)` (state transformer
and return value), and for a non-null payload `my_realloc(p, 0)` performs
exactly `my_free(p)` and returns null. -/
theorem c8_realloc_null_zero (h : Heap) (n p : Nat) (hp : p ≠ 0) :
    my_realloc h 0 n = my_malloc h n ∧
      my_realloc h p 0 = (none, my_free h p) := by
  constructor
  · simp [my_realloc]
  · simp [my_realloc, hp]

/-- Witness for C8 at a concrete heap and payload. -/
theorem c8_realloc_null_zero_witness :
    my_realloc ⟨fun _ => 0, 64, 64, 64, 64, [], PREV_ALLOC_INIT⟩ 0 5 =
        my_malloc ⟨fun _ => 0, 64, 64, 64, 64, [], PREV_ALLOC_INIT⟩ 5 ∧
      my_realloc ⟨fun _ => 0, 64, 64, 64, 64, [], PREV_ALLOC_INIT⟩ 72 0 =
        (none, my_free ⟨fun _ => 0, 64, 64, 64, 64, [], PREV_ALLOC_INIT⟩ 72) :=
  c8_realloc_null_zero _ 5 72 (by decide)

/-- C9.  If the rounded requested block size equals the block's current size,
`my_realloc` returns the payload itself and the heap state is unchanged; in
particular this happens when resizing a block to its own payload capacity
`block_size - HEADER_SIZE`. -/
theorem c9_realloc_same_size (h : Heap) (p size : Nat) (hp : p ≠ 0)
    (hsz : size ≠ 0)
    (hround : round_up size % U32 = block_size h (p - HEADER_SIZE)) :
    my_realloc h p size = (some p, h) := by
  simp only [my_realloc]
  rw [if_neg hp, if_neg hsz, if_pos hround]

/-- Witness for C9: a one-block heap (block of size 24 at address 64, not
free), resized to its payload capacity 16; the rounded size 24 equals the
block size and `my_realloc` returns the payload with the state unchanged. -/
theorem c9_realloc_same_size_witness :
    my_realloc ⟨fun a => if a = 68 then 24 else 0, 64, 88, 88, 88,
        List.replicate NUM_BINS [], 64⟩ 72 16 =
      (some 72, ⟨fun a => if a = 68 then 24 else 0, 64, 88, 88, 88,
        List.replicate NUM_BINS [], 64⟩) :=
  c9_realloc_same_size _ 72 16 (by decide) (by decide) (by decide)

theorem heap_ext {h1 h2 : Heap} (hm : h1.mem = h2.mem) (hlo : h1.lo = h2.lo)
    (hhi : h1.hi = h2.hi) (hbrk : h1.brk = h2.brk) (hcap : h1.cap = h2.cap)
    (hbins : h1.bins = h2.bins) (hpa : h1.prevAlloc = h2.prevAlloc) :
    h1 = h2 := by
  cases h1
  cases h2
  simp_all

@[simp] theorem block_set_free_lo (h : Heap) (b f : Nat) :
    (block_set_free h b f).lo = h.lo := by
  unfold block_set_free
  dsimp only
  split <;> rfl

@[simp] theorem block_set_free_hi (h : Heap) (b f : Nat) :
    (block_set_free h b f).hi = h.hi := by
  unfold block_set_free
  dsimp only
  split <;> rfl

@[simp] theorem block_set_free_brk (h : Heap) (b f : Nat) :
    (block_set_free h b f).brk = h.brk := by
  unfold block_set_free
  dsimp only
  split <;> rfl

@[simp] theorem block_set_free_cap (h : Heap) (b f : Nat) :
    (block_set_free h b f).cap = h.cap := by
  unfold block_set_free
  dsimp only
  split <;> rfl

@[simp] theorem block_set_free_bins (h : Heap) (b f : Nat) :
    (block_set_free h b f).bins = h.bins := by
  unfold block_set_free
  dsimp only
  split <;> rfl

@[simp] theorem block_set_free_prevAlloc (h : Heap) (b f : Nat) :
    (block_set_free h b f).prevAlloc = h.prevAlloc := by
  unfold block_set_free
  dsimp only
  split <;> rfl

@[simp] theorem block_set_size_lo (h : Heap) (b s : Nat) :
    (block_set_size h b s).lo = h.lo := by
  unfold block_set_size
  dsimp only
  split <;> rfl

@[simp] theorem block_set_size_hi (h : Heap) (b s : Nat) :
    (block_set_size h b s).hi = h.hi := by
  unfold block_set_size
  dsimp only
  split <;> rfl

@[simp] theorem block_set_size_brk (h : Heap) (b s : Nat) :
    (block_set_size h b s).brk = h.brk := by
  unfold block_set_size
  dsimp only
  split <;> rfl

@[simp] theorem block_set_size_cap (h : Heap) (b s : Nat) :
    (block_set_size h b s).cap = h.cap := by
  unfold block_set_size
  dsimp only
  split <;> rfl

@[simp] theorem block_set_size_bins (h : Heap) (b s : Nat) :
    (block_set_size h b s).bins = h.bins := by
  unfold block_set_size
  dsimp only
  split <;> rfl

@[simp] theorem block_set_size_prevAlloc (h : Heap) (b s : Nat) :
    (block_set_size h b s).prevAlloc = h.prevAlloc := by
  unfold block_set_size
  dsimp only
  split <;> rfl

@[simp] theorem block_update_last_mem (h : Heap) (b : Nat) :
    (block_update_last h b).mem = h.mem := by
  unfold block_update_last
  split <;> rfl

@[simp] theorem block_update_last_lo (h : Heap) (b : Nat) :
    (block_update_last h b).lo = h.lo := by
  unfold block_update_last
  split <;> rfl

@[simp] theorem block_update_last_hi (h : Heap) (b : Nat) :
    (block_update_last h b).hi = h.hi := by
  unfold block_update_last
  split <;> rfl

@[simp] theorem block_update_last_brk (h : Heap) (b : Nat) :
    (block_update_last h b).brk = h.brk := by
  unfold block_update_last
  split <;> rfl

@[simp] theorem block_update_last_cap (h : Heap) (b : Nat) :
    (block_update_last h b).cap = h.cap := by
  unfold block_update_last
  split <;> rfl

@[simp] theorem block_update_last_bins (h : Heap) (b : Nat) :
    (block_update_last h b).bins = h.bins := by
  unfold block_update_last
  split <;> rfl

@[simp] theorem extract_mem (h : Heap) (b : Nat) :
    (extract h b).mem = h.mem := rfl

@[simp] theorem extract_lo (h : Heap) (b : Nat) : (extract h b).lo = h.lo := rfl

@[simp] theorem extract_hi (h : Heap) (b : Nat) : (extract h b).hi = h.hi := rfl

@[simp] theorem extract_brk (h : Heap) (b : Nat) :
    (extract h b).brk = h.brk := rfl

@[simp] theorem extract_cap (h : Heap) (b : Nat) :
    (extract h b).cap = h.cap := rfl

@[simp] theorem extract_prevAlloc (h : Heap) (b : Nat) :
    (extract h b).prevAlloc = h.prevAlloc := rfl

@[simp] theorem push_mem (h : Heap) (b : Nat) :
    (push h b).mem = (block_set_free h b 1).mem := rfl

@[simp] theorem push_lo (h : Heap) (b : Nat) : (push h b).lo = h.lo := by
  unfold push binsSet
  simp

@[simp] theorem push_hi (h : Heap) (b : Nat) : (push h b).hi = h.hi := by
  unfold push binsSet
  simp

@[simp] theorem push_brk (h : Heap) (b : Nat) : (push h b).brk = h.brk := by
  unfold push binsSet
  simp

@[simp] theorem push_cap (h : Heap) (b : Nat) : (push h b).cap = h.cap := by
  unfold push binsSet
  simp

@[simp] theorem push_prevAlloc (h : Heap) (b : Nat) :
    (push h b).prevAlloc = h.prevAlloc := by
  unfold push binsSet
  simp

theorem sizeField_after_store (h : Heap) (b v : Nat) (hv : v < U32) :
    sizeField { h with mem := store32 h.mem (b + 4) v } b = v := by
  unfold sizeField
  rw [load32_store32_self]
  unfold U32 at hv ⊢
  omega

theorem right_after_store (h : Heap) (b v : Nat) (hv : v < U32) :
    right { h with mem := store32 h.mem (b + 4) v } b = b + (v - v % 2) := by
  unfold right block_size
  rw [sizeField_after_store h b v hv]

theorem block_set_free_mem_lt {h : Heap} {b f : Nat} (hf : f ≤ 1)
    (hlt : b + block_size h b < h.hi) :
    (block_set_free h b f).mem =
      store32 (store32 h.mem (b + 4) (sizeField h b - sizeField h b % 2 + f))
        (b + block_size h b) (sizeField h b - sizeField h b % 2 + f) := by
  have hsl : sizeField h b < U32 := sizeField_lt
  have hv : sizeField h b - sizeField h b % 2 + f < U32 := by
    unfold U32 at hsl ⊢
    omega
  have hbs : sizeField h b - sizeField h b % 2 + f -
      (sizeField h b - sizeField h b % 2 + f) % 2 = block_size h b := by
    unfold block_size
    omega
  have hr := right_after_store h b (sizeField h b - sizeField h b % 2 + f) hv
  rw [hbs] at hr
  have hself := sizeField_after_store h b (sizeField h b - sizeField h b % 2 + f) hv
  unfold block_set_free
  dsimp only
  rw [hr, if_pos hlt]
  dsimp only
  rw [hself]

theorem block_set_free_mem_ge {h : Heap} {b f : Nat} (hf : f ≤ 1)
    (hge : ¬ b + block_size h b < h.hi) :
    (block_set_free h b f).mem =
      store32 h.mem (b + 4) (sizeField h b - sizeField h b % 2 + f) := by
  have hsl : sizeField h b < U32 := sizeField_lt
  have hv : sizeField h b - sizeField h b % 2 + f < U32 := by
    unfold U32 at hsl ⊢
    omega
  have hbs : sizeField h b - sizeField h b % 2 + f -
      (sizeField h b - sizeField h b % 2 + f) % 2 = block_size h b := by
    unfold block_size
    omega
  have hr := right_after_store h b (sizeField h b - sizeField h b % 2 + f) hv
  rw [hbs] at hr
  unfold block_set_free
  dsimp only
  rw [hr, if_neg hge]

theorem block_set_size_mem_lt {h : Heap} {b s : Nat} (hev : s % 2 = 0)
    (hs32 : s < U32) (hlt : b + s < h.hi) :
    (block_set_size h b s).mem =
      store32 (store32 h.mem (b + 4) (sizeField h b % 2 + s))
        (b + s) (sizeField h b % 2 + s) := by
  have hsl : sizeField h b < U32 := sizeField_lt
  have hmask : maskInfo s = s := by
    unfold maskInfo U32 at *
    omega
  have hv : sizeField h b % 2 + s < U32 := by
    unfold U32 at hs32 ⊢
    omega
  have hbs : sizeField h b % 2 + s - (sizeField h b % 2 + s) % 2 = s := by
    omega
  have hr := right_after_store h b (sizeField h b % 2 + s) hv
  rw [hbs] at hr
  have hself := sizeField_after_store h b (sizeField h b % 2 + s) hv
  unfold block_set_size
  dsimp only
  rw [hmask, hr, if_pos hlt]
  dsimp only
  rw [hself]

theorem block_set_size_mem_ge {h : Heap} {b s : Nat} (hev : s % 2 = 0)
    (hs32 : s < U32) (hge : ¬ b + s < h.hi) :
    (block_set_size h b s).mem = store32 h.mem (b + 4) (sizeField h b % 2 + s) := by
  have hsl : sizeField h b < U32 := sizeField_lt
  have hmask : maskInfo s = s := by
    unfold maskInfo U32 at *
    omega
  have hv : sizeField h b % 2 + s < U32 := by
    unfold U32 at hs32 ⊢
    omega
  have hbs : sizeField h b % 2 + s - (sizeField h b % 2 + s) % 2 = s := by
    omega
  have hr := right_after_store h b (sizeField h b % 2 + s) hv
  rw [hbs] at hr
  unfold block_set_size
  dsimp only
  rw [hmask, hr, if_neg hge]

theorem mirror_of_field_eq {h : Heap} {r b : Nat}
    (he : prevSizeField h r = sizeField h b) :
    block_prev_size h r = block_size h b ∧
      prev_is_free h r = block_is_free h b := by
  unfold block_prev_size block_size prev_is_free block_is_free
  rw [he]
  exact ⟨rfl, rfl⟩

/-- C4.  After `block_set_size(B, s)` (for an even 32-bit size `s ≥ 8`) and
after `block_set_free(B, f)`, if the right neighbour `R = right(B)` lies below
`heap_hi` then `R`'s raw `prev_size` field equals `B`'s raw `size` field; in
particular the size stored in `R.prev_size` equals `size(B)` and the free bit
packed into `R.prev_size` equals `B`'s free bit. -/
theorem c4_prev_size_mirror (h : Heap) (b s f : Nat)
    (hev : s % 2 = 0) (hs32 : s < U32) (h8s : 8 ≤ s)
    (hf : f ≤ 1) (h8b : 8 ≤ block_size h b) :
    (b + s < h.hi →
      prevSizeField (block_set_size h b s) (right (block_set_size h b s) b) =
          sizeField (block_set_size h b s) b ∧
        block_prev_size (block_set_size h b s) (right (block_set_size h b s) b) =
          block_size (block_set_size h b s) b ∧
        prev_is_free (block_set_size h b s) (right (block_set_size h b s) b) =
          block_is_free (block_set_size h b s) b) ∧
    (b + block_size h b < h.hi →
      prevSizeField (block_set_free h b f) (right (block_set_free h b f) b) =
          sizeField (block_set_free h b f) b ∧
        block_prev_size (block_set_free h b f) (right (block_set_free h b f) b) =
          block_size (block_set_free h b f) b ∧
        prev_is_free (block_set_free h b f) (right (block_set_free h b f) b) =
          block_is_free (block_set_free h b f) b) := by
  have hsl : sizeField h b < U32 := sizeField_lt
  constructor
  · intro hlt
    have hmem := block_set_size_mem_lt hev hs32 hlt
    have hvlt : sizeField h b % 2 + s < U32 := by
      unfold U32 at *
      omega
    have hsf : sizeField (block_set_size h b s) b = sizeField h b % 2 + s := by
      have hdef : sizeField (block_set_size h b s) b =
          load32 (block_set_size h b s).mem (b + 4) := rfl
      rw [hdef, hmem, load32_store32_disj (Or.inl (by omega)),
        load32_store32_self]
      unfold U32 at hvlt ⊢
      omega
    have hr : right (block_set_size h b s) b = b + s := by
      unfold right block_size
      rw [hsf]
      omega
    have hpf : prevSizeField (block_set_size h b s) (b + s) =
        sizeField h b % 2 + s := by
      have hdef : prevSizeField (block_set_size h b s) (b + s) =
          load32 (block_set_size h b s).mem (b + s) := rfl
      rw [hdef, hmem, load32_store32_self]
      unfold U32 at hvlt ⊢
      omega
    rw [hr]
    have h1 : prevSizeField (block_set_size h b s) (b + s) =
        sizeField (block_set_size h b s) b := by
      rw [hpf, hsf]
    exact ⟨h1, (mirror_of_field_eq h1).1, (mirror_of_field_eq h1).2⟩
  · intro hlt
    have hmem := block_set_free_mem_lt hf hlt
    have hvlt : sizeField h b - sizeField h b % 2 + f < U32 := by
      unfold U32 at *
      omega
    have hsf : sizeField (block_set_free h b f) b =
        sizeField h b - sizeField h b % 2 + f := by
      have hdef : sizeField (block_set_free h b f) b =
          load32 (block_set_free h b f).mem (b + 4) := rfl
      have h8b' : 8 ≤ sizeField h b - sizeField h b % 2 := h8b
      rw [hdef, hmem, load32_store32_disj (Or.inl (by
          unfold block_size
          omega)), load32_store32_self]
      unfold U32 at hvlt ⊢
      omega
    have hr : right (block_set_free h b f) b = b + block_size h b := by
      unfold right block_size
      rw [hsf]
      omega
    have hpf : prevSizeField (block_set_free h b f) (b + block_size h b) =
        sizeField h b - sizeField h b % 2 + f := by
      have hdef : prevSizeField (block_set_free h b f) (b + block_size h b) =
          load32 (block_set_free h b f).mem (b + block_size h b) := rfl
      rw [hdef, hmem, load32_store32_self]
      unfold U32 at hvlt ⊢
      omega
    rw [hr]
    have h1 : prevSizeField (block_set_free h b f) (b + block_size h b) =
        sizeField (block_set_free h b f) b := by
      rw [hpf, hsf]
    exact ⟨h1, (mirror_of_field_eq h1).1, (mirror_of_field_eq h1).2⟩

/-- Witness for C4: the one-block heap `hC4`, with its block resized to 32 and
freed. -/
theorem c4_prev_size_mirror_witness :
    (32 : Nat) % 2 = 0 ∧ (32 : Nat) < U32 ∧ (8 : Nat) ≤ 32 ∧ (1 : Nat) ≤ 1 ∧
      8 ≤ block_size hC4 64 ∧
      ((64 + 32 < hC4.hi →
        prevSizeField (block_set_size hC4 64 32)
            (right (block_set_size hC4 64 32) 64) =
          sizeField (block_set_size hC4 64 32) 64 ∧
        block_prev_size (block_set_size hC4 64 32)
            (right (block_set_size hC4 64 32) 64) =
          block_size (block_set_size hC4 64 32) 64 ∧
        prev_is_free (block_set_size hC4 64 32)
            (right (block_set_size hC4 64 32) 64) =
          block_is_free (block_set_size hC4 64 32) 64) ∧
      (64 + block_size hC4 64 < hC4.hi →
        prevSizeField (block_set_free hC4 64 1)
            (right (block_set_free hC4 64 1) 64) =
          sizeField (block_set_free hC4 64 1) 64 ∧
        block_prev_size (block_set_free hC4 64 1)
            (right (block_set_free hC4 64 1) 64) =
          block_size (block_set_free hC4 64 1) 64 ∧
        prev_is_free (block_set_free hC4 64 1)
            (right (block_set_free hC4 64 1) 64) =
          block_is_free (block_set_free hC4 64 1) 64)) :=
  ⟨by decide, by decide, by decide, by decide, by decide,
    c4_prev_size_mirror hC4 64 32 1 (by decide) (by decide) (by decide)
      (by decide) (by decide)⟩

/-- C2 is a code bug.  On the append-new path the code checks
`mem_sbrk`'s return against `(void* )(-1)` and correctly returns null with the
heap unchanged (third conjunct).  On the extend-frontier-if-free path there is
no such check: with one free 24-byte frontier block and an exhausted region,
`my_malloc(100)` calls `mem_sbrk(88)`, which refuses, and the code then stores
`(uint8_t* )(-1) + 88` (address 87) into `heap_hi` and returns the stale
frontier payload 72 instead of null — the heap is corrupted
(`heap_hi = 87 < heap_lo`, diverging from the break pointer 88) and the caller
receives memory that was never obtained.  The claim (return null, heap
unchanged) is what the append path does and what the spec demands; the
frontier path is a slip. -/
theorem c2_grow_failure_code_bug :
    (my_malloc hC2 100).1 = some 72 ∧
      (my_malloc hC2 100).2.hi = 87 ∧
      (my_malloc hC2 100).2.hi ≠ hC2.hi ∧
      my_malloc hEmpty 100 = (none, hEmpty) := by
  refine ⟨by decide, by decide, by decide, rfl⟩

theorem sizeField_set_size_self {h : Heap} {b s : Nat} (hev : s % 2 = 0)
    (hs32 : s < U32) (h8 : 8 ≤ s) :
    sizeField (block_set_size h b s) b = sizeField h b % 2 + s := by
  have hvlt : sizeField h b % 2 + s < U32 := by
    have := sizeField_lt (h := h) (b := b)
    unfold U32 at *
    omega
  have hdef : sizeField (block_set_size h b s) b =
      load32 (block_set_size h b s).mem (b + 4) := rfl
  by_cases hlt : b + s < h.hi
  · rw [hdef, block_set_size_mem_lt hev hs32 hlt,
      load32_store32_disj (Or.inl (by omega)), load32_store32_self]
    unfold U32 at hvlt ⊢
    omega
  · rw [hdef, block_set_size_mem_ge hev hs32 hlt, load32_store32_self]
    unfold U32 at hvlt ⊢
    omega

theorem block_size_set_size_self {h : Heap} {b s : Nat} (hev : s % 2 = 0)
    (hs32 : s < U32) (h8 : 8 ≤ s) :
    block_size (block_set_size h b s) b = s := by
  unfold block_size
  rw [sizeField_set_size_self hev hs32 h8]
  omega

theorem right_set_size_self {h : Heap} {b s : Nat} (hev : s % 2 = 0)
    (hs32 : s < U32) (h8 : 8 ≤ s) :
    right (block_set_size h b s) b = b + s := by
  unfold right
  rw [block_size_set_size_self hev hs32 h8]

theorem free_set_size_self {h : Heap} {b s : Nat} (hev : s % 2 = 0)
    (hs32 : s < U32) (h8 : 8 ≤ s) :
    block_is_free (block_set_size h b s) b = block_is_free h b := by
  unfold block_is_free
  rw [sizeField_set_size_self hev hs32 h8]
  have : (sizeField h b % 2 + s) % 2 = sizeField h b % 2 := by omega
  rw [this]

theorem sizeField_set_free_self {h : Heap} {b f : Nat} (hf : f ≤ 1)
    (h8 : 8 ≤ block_size h b) :
    sizeField (block_set_free h b f) b =
      sizeField h b - sizeField h b % 2 + f := by
  have hsl : sizeField h b < U32 := sizeField_lt
  have hvlt : sizeField h b - sizeField h b % 2 + f < U32 := by
    unfold U32 at *
    omega
  have h8' : 8 ≤ sizeField h b - sizeField h b % 2 := h8
  have hdef : sizeField (block_set_free h b f) b =
      load32 (block_set_free h b f).mem (b + 4) := rfl
  by_cases hlt : b + block_size h b < h.hi
  · rw [hdef, block_set_free_mem_lt hf hlt,
      load32_store32_disj (Or.inl (by
        unfold block_size
        omega)), load32_store32_self]
    unfold U32 at hvlt ⊢
    omega
  · rw [hdef, block_set_free_mem_ge hf hlt, load32_store32_self]
    unfold U32 at hvlt ⊢
    omega

theorem block_size_set_free_self {h : Heap} {b f : Nat} (hf : f ≤ 1)
    (h8 : 8 ≤ block_size h b) :
    block_size (block_set_free h b f) b = block_size h b := by
  unfold block_size
  rw [sizeField_set_free_self hf h8]
  omega

theorem free_set_free_self {h : Heap} {b f : Nat} (hf : f ≤ 1)
    (h8 : 8 ≤ block_size h b) :
    block_is_free (block_set_free h b f) b = (f == 1) := by
  unfold block_is_free
  rw [sizeField_set_free_self hf h8]
  have : (sizeField h b - sizeField h b % 2 + f) % 2 = f := by omega
  rw [this]

theorem load32_set_size_other {h : Heap} {b s x : Nat} (hev : s % 2 = 0)
    (hs32 : s < U32) (hx4 : x + 4 ≤ b + 4 ∨ b + 8 ≤ x)
    (hxs : x + 4 ≤ b + s ∨ b + s + 4 ≤ x) :
    load32 (block_set_size h b s).mem x = load32 h.mem x := by
  by_cases hlt : b + s < h.hi
  · rw [block_set_size_mem_lt hev hs32 hlt,
      load32_store32_disj (by omega), load32_store32_disj (by omega)]
  · rw [block_set_size_mem_ge hev hs32 hlt, load32_store32_disj (by omega)]

theorem load32_set_free_other {h : Heap} {b f x : Nat} (hf : f ≤ 1)
    (hx4 : x + 4 ≤ b + 4 ∨ b + 8 ≤ x)
    (hxr : x + 4 ≤ b + block_size h b ∨ b + block_size h b + 4 ≤ x) :
    load32 (block_set_free h b f).mem x = load32 h.mem x := by
  by_cases hlt : b + block_size h b < h.hi
  · rw [block_set_free_mem_lt hf hlt,
      load32_store32_disj (by omega), load32_store32_disj (by omega)]
  · rw [block_set_free_mem_ge hf hlt, load32_store32_disj (by omega)]

theorem coalesce_no_merge {h : Heap} {b : Nat}
    (hr : ¬ (right h b < h.hi ∧ block_is_free h (right h b) = true))
    (hl : ¬ (h.lo ≤ left h b ∧ block_is_free h (left h b) = true)) :
    coalesce h b = push h b := by
  unfold coalesce
  dsimp only
  rw [if_neg hr, if_neg hl]

theorem binsGet_binsSet_self {h : Heap} {i : Nat} {l : List Nat}
    (hlen : i < h.bins.length) : binsGet (binsSet h i l) i = l := by
  unfold binsGet binsSet
  dsimp only
  unfold List.getD
  rw [List.get?_eq_getElem?, List.getElem?_set_eq_of_lt _ hlen]
  rfl

theorem binsGet_binsSet_other {h : Heap} {i j : Nat} {l : List Nat}
    (hij : i ≠ j) : binsGet (binsSet h i l) j = binsGet h j := by
  unfold binsGet binsSet
  dsimp only
  unfold List.getD
  rw [List.get?_eq_getElem?, List.get?_eq_getElem?, List.getElem?_set_ne hij]

theorem push_bins (h : Heap) (b : Nat) :
    (push h b).bins = h.bins.set (block_bin (block_size h b))
      (b :: binsGet h (block_bin (block_size h b))) := by
  unfold push binsSet binsGet
  dsimp only
  rw [block_set_free_bins]

theorem sizeField_congr_mem {h1 h2 : Heap} (hm : h1.mem = h2.mem) (x : Nat) :
    sizeField h1 x = sizeField h2 x := by
  unfold sizeField
  rw [hm]

theorem prevSizeField_congr_mem {h1 h2 : Heap} (hm : h1.mem = h2.mem)
    (x : Nat) : prevSizeField h1 x = prevSizeField h2 x := by
  unfold prevSizeField
  rw [hm]

theorem free_of_sizeField {h1 h2 : Heap} {x y : Nat}
    (hs : sizeField h1 x = sizeField h2 y) :
    block_is_free h1 x = block_is_free h2 y := by
  unfold block_is_free
  rw [hs]

theorem bsize_of_sizeField {h1 h2 : Heap} {x y : Nat}
    (hs : sizeField h1 x = sizeField h2 y) :
    block_size h1 x = block_size h2 y := by
  unfold block_size
  rw [hs]

/-- C10.  `shrink(block, target)` on an allocated block whose right neighbour
is not free: if the leftover `block_size - target` is below `SHRINK_MIN_SIZE`
the whole heap is left unchanged; otherwise the block's size becomes exactly
`target`, a new free block of exactly the remainder sits immediately to its
right (its `prev_size` back-pointer holding `target`), and that block has been
pushed into the free list of its size class. -/
theorem c10_shrink_split (h : Heap) (a t : Nat)
    (hfree : block_is_free h a = false)
    (ht8 : t % 8 = 0) (h16 : 16 ≤ t)
    (hbs8 : block_size h a % 8 = 0)
    (hble : t ≤ block_size h a)
    (hbound : a + block_size h a ≤ h.hi)
    (h28 : block_size h a < 2 ^ 28)
    (hlen : h.bins.length = NUM_BINS)
    (hnfr : ¬ (a + block_size h a < h.hi ∧
      block_is_free h (a + block_size h a) = true)) :
    (block_size h a - t < SHRINK_MIN_SIZE → shrink h a t = h) ∧
    (SHRINK_MIN_SIZE ≤ block_size h a - t →
      block_size (shrink h a t) a = t ∧
      block_is_free (shrink h a t) a = false ∧
      block_size (shrink h a t) (a + t) = block_size h a - t ∧
      block_is_free (shrink h a t) (a + t) = true ∧
      block_prev_size (shrink h a t) (a + t) = t ∧
      prev_is_free (shrink h a t) (a + t) = false ∧
      a + t ∈ binsGet (shrink h a t) (block_bin (block_size h a - t))) := by
  have hbslt : block_size h a < U32 := block_size_lt
  have ht32 : t < U32 := by omega
  have htm : t % U32 = t := by
    unfold U32 at ht32 ⊢
    omega
  have hsn : (block_size h a + (U32 - t % U32)) % U32 = block_size h a - t := by
    rw [htm]
    unfold U32 at hbslt ⊢
    omega
  have halign : ALIGN SHRINK_MIN_SIZE = 24 := by decide
  have hsm : SHRINK_MIN_SIZE = 24 := rfl
  constructor
  · intro hlt
    rw [hsm] at hlt
    unfold shrink
    dsimp only
    rw [hsn, if_neg (by rw [halign]; omega)]
  · intro hge
    rw [hsm] at hge
    have hfe : sizeField h a % 2 = 0 := by
      unfold block_is_free at hfree
      rcases Nat.mod_two_eq_zero_or_one (sizeField h a) with h0 | h1
      · exact h0
      · rw [h1] at hfree
        simp at hfree
    have htev : t % 2 = 0 := by omega
    have h8t : 8 ≤ t := by omega
    have hlt_at : a + t < h.hi := by omega
    unfold shrink
    dsimp only
    rw [hsn, if_pos (by rw [halign]; omega)]
    have hf1 : sizeField (block_set_size h a t) a = t := by
      rw [sizeField_set_size_self htev ht32 h8t, hfe]
      omega
    have hr1 : right (block_set_size h a t) a = a + t :=
      right_set_size_self htev ht32 h8t
    rw [hr1]
    set H1 := block_set_size h a t with hH1
    have hmem1 : H1.mem =
        store32 (store32 h.mem (a + 4) t) (a + t) t := by
      rw [hH1]
      have := block_set_size_mem_lt htev ht32 hlt_at
      rw [hfe] at this
      simp only [Nat.zero_add] at this
      exact this
    have hprev1 : prevSizeField H1 (a + t) = t := by
      unfold prevSizeField
      rw [hmem1, load32_store32_self, htm]
    have hG1 : sizeField H1 (a + t) = sizeField h (a + t) := by
      have hdef : sizeField H1 (a + t) = load32 H1.mem (a + t + 4) := rfl
      rw [hdef, hH1,
        load32_set_size_other htev ht32 (Or.inr (by omega)) (Or.inr (by omega))]
      rfl
    have hsf1a : sizeField H1 a = t := by
      rw [hH1]
      exact hf1
    have hev2 : (block_size h a - t) % 2 = 0 := by omega
    have hs32b : block_size h a - t < U32 := by omega
    have h8b2 : 8 ≤ block_size h a - t := by omega
    set H2 := block_set_size H1 (a + t) (block_size h a - t) with hH2
    have hsf2at : sizeField H2 (a + t) =
        sizeField h (a + t) % 2 + (block_size h a - t) := by
      rw [hH2, sizeField_set_size_self hev2 hs32b h8b2, hG1]
    have hbs2at : block_size H2 (a + t) = block_size h a - t := by
      rw [hH2]
      exact block_size_set_size_self hev2 hs32b h8b2
    have hsf2a : sizeField H2 a = t := by
      have hdef : sizeField H2 a = load32 H2.mem (a + 4) := rfl
      rw [hdef, hH2,
        load32_set_size_other hev2 hs32b (Or.inl (by omega)) (Or.inl (by omega))]
      exact hsf1a
    have hprev2 : prevSizeField H2 (a + t) = t := by
      have hdef : prevSizeField H2 (a + t) = load32 H2.mem (a + t) := rfl
      rw [hdef, hH2,
        load32_set_size_other hev2 hs32b (Or.inl (by omega)) (Or.inl (by omega))]
      exact hprev1
    have hsf2r : sizeField H2 (a + block_size h a) =
        sizeField h (a + block_size h a) := by
      have hdef : sizeField H2 (a + block_size h a) =
          load32 H2.mem (a + block_size h a + 4) := rfl
      rw [hdef, hH2,
        load32_set_size_other hev2 hs32b (Or.inr (by omega)) (Or.inr (by omega)),
        hH1,
        load32_set_size_other htev ht32 (Or.inr (by omega)) (Or.inr (by omega))]
      rfl
    set H3 := block_update_last H2 (a + t) with hH3
    have hm3 : H3.mem = H2.mem := by
      rw [hH3]
      exact block_update_last_mem _ _
    have hhi3 : H3.hi = h.hi := by
      rw [hH3, hH2, hH1]
      simp
    have hbins3 : H3.bins = h.bins := by
      rw [hH3, hH2, hH1]
      simp
    have hbs3 : block_size H3 (a + t) = block_size h a - t := by
      rw [bsize_of_sizeField (sizeField_congr_mem hm3 (a + t))]
      exact hbs2at
    have hsf3at : sizeField H3 (a + t) =
        sizeField h (a + t) % 2 + (block_size h a - t) := by
      rw [sizeField_congr_mem hm3 (a + t)]
      exact hsf2at
    have hsf3a : sizeField H3 a = t := by
      rw [sizeField_congr_mem hm3 a]
      exact hsf2a
    have hprev3 : prevSizeField H3 (a + t) = t := by
      rw [prevSizeField_congr_mem hm3 (a + t)]
      exact hprev2
    have hc_r : right H3 (a + t) = a + block_size h a := by
      unfold right
      rw [hbs3]
      omega
    have hfr3 : block_is_free H3 (a + block_size h a) =
        block_is_free h (a + block_size h a) := by
      apply free_of_sizeField
      rw [sizeField_congr_mem hm3 (a + block_size h a)]
      exact hsf2r
    have cr : ¬ (right H3 (a + t) < H3.hi ∧
        block_is_free H3 (right H3 (a + t)) = true) := by
      rw [hc_r, hhi3, hfr3]
      exact hnfr
    have hl3 : left H3 (a + t) = a := by
      unfold left block_prev_size
      rw [hprev3]
      omega
    have hfa3 : block_is_free H3 a = false := by
      unfold block_is_free
      rw [hsf3a]
      simp [htev]
    have cl : ¬ (H3.lo ≤ left H3 (a + t) ∧
        block_is_free H3 (left H3 (a + t)) = true) := by
      rw [hl3, hfa3]
      simp
    rw [coalesce_no_merge cr cl]
    have hpm : (push H3 (a + t)).mem = (block_set_free H3 (a + t) 1).mem :=
      push_mem _ _
    have h8bs3 : 8 ≤ block_size H3 (a + t) := by
      rw [hbs3]
      omega
    have hsfp_at : sizeField (push H3 (a + t)) (a + t) =
        block_size h a - t + 1 := by
      rw [sizeField_congr_mem hpm (a + t), sizeField_set_free_self (by omega) h8bs3,
        hsf3at]
      omega
    have hsfp_a : sizeField (push H3 (a + t)) a = t := by
      rw [sizeField_congr_mem hpm a]
      have hdef : sizeField (block_set_free H3 (a + t) 1) a =
          load32 (block_set_free H3 (a + t) 1).mem (a + 4) := rfl
      rw [hdef, load32_set_free_other (by omega) (Or.inl (by omega))
        (Or.inl (by rw [hbs3]; omega))]
      exact hsf3a
    have hprevp : prevSizeField (push H3 (a + t)) (a + t) = t := by
      rw [prevSizeField_congr_mem hpm (a + t)]
      have hdef : prevSizeField (block_set_free H3 (a + t) 1) (a + t) =
          load32 (block_set_free H3 (a + t) 1).mem (a + t) := rfl
      rw [hdef, load32_set_free_other (by omega) (Or.inl (by omega))
        (Or.inl (by rw [hbs3]; omega))]
      exact hprev3
    have hbinlt : block_bin (block_size h a - t) < NUM_BINS := by
      have h16b : 16 ≤ block_size h a - t := by omega
      have hmp : (2 : Nat) ^ (MAX_BLOCK_POW - 1) = 2 ^ 28 := by
        norm_num [MAX_BLOCK_POW]
      exact (block_bin_lt_iff h16b hs32b).2 (by rw [hmp]; omega)
    have hpb := push_bins H3 (a + t)
    rw [hbs3] at hpb
    have hmem_bins : a + t ∈ binsGet (push H3 (a + t))
        (block_bin (block_size h a - t)) := by
      unfold binsGet
      rw [hpb]
      unfold List.getD
      rw [List.get?_eq_getElem?, List.getElem?_set_eq_of_lt _ (by
        rw [hbins3, hlen]
        exact hbinlt)]
      simp
    refine ⟨?_, ?_, ?_, ?_, ?_, ?_, hmem_bins⟩
    · unfold block_size
      rw [hsfp_a]
      omega
    · unfold block_is_free
      rw [hsfp_a]
      simp [htev]
    · have hdef : block_size (push H3 (a + t)) (a + t) =
          sizeField (push H3 (a + t)) (a + t) -
            sizeField (push H3 (a + t)) (a + t) % 2 := rfl
      rw [hdef, hsfp_at]
      omega
    · unfold block_is_free
      rw [hsfp_at]
      simp
      omega
    · unfold block_prev_size
      rw [hprevp]
      omega
    · unfold prev_is_free
      rw [hprevp]
      simp [htev]

/-- Witness for C10: shrinking the 64-byte block of `hC10` to 24 bytes leaves
a 40-byte remainder block. -/
theorem c10_shrink_split_witness :
    (block_is_free hC10 64 = false ∧ (24 : Nat) % 8 = 0 ∧ (16 : Nat) ≤ 24 ∧
      block_size hC10 64 % 8 = 0 ∧ 24 ≤ block_size hC10 64 ∧
      64 + block_size hC10 64 ≤ hC10.hi ∧ block_size hC10 64 < 2 ^ 28 ∧
      hC10.bins.length = NUM_BINS ∧
      ¬ (64 + block_size hC10 64 < hC10.hi ∧
        block_is_free hC10 (64 + block_size hC10 64) = true)) ∧
    ((block_size hC10 64 - 24 < SHRINK_MIN_SIZE → shrink hC10 64 24 = hC10) ∧
      (SHRINK_MIN_SIZE ≤ block_size hC10 64 - 24 →
        block_size (shrink hC10 64 24) 64 = 24 ∧
        block_is_free (shrink hC10 64 24) 64 = false ∧
        block_size (shrink hC10 64 24) (64 + 24) = block_size hC10 64 - 24 ∧
        block_is_free (shrink hC10 64 24) (64 + 24) = true ∧
        block_prev_size (shrink hC10 64 24) (64 + 24) = 24 ∧
        prev_is_free (shrink hC10 64 24) (64 + 24) = false ∧
        64 + 24 ∈ binsGet (shrink hC10 64 24)
          (block_bin (block_size hC10 64 - 24)))) :=
  ⟨⟨by decide, by decide, by decide, by decide, by decide, by decide,
      by decide, by decide, by decide⟩,
    c10_shrink_split hC10 64 24 (by decide) (by decide) (by decide) (by decide)
      (by decide) (by decide) (by decide) (by decide) (by decide)⟩

theorem pull_scan_some_mem {h : Heap} {size b : Nat} :
    ∀ {l : List Nat}, (pull_scan h size l).1 = some b → b ∈ l := by
  intro l
  induction l with
  | nil =>
    intro hp
    simp [pull_scan] at hp
  | cons x rest ih =>
    intro hp
    unfold pull_scan at hp
    by_cases hx : size ≤ block_size h x
    · rw [if_pos hx] at hp
      simp at hp
      simp [hp]
    · rw [if_neg hx] at hp
      dsimp only at hp
      have := ih hp
      simp [this]

theorem pull_some_mem {h : Heap} {size bin b : Nat} {h1 : Heap}
    (hp : pull h size bin = (some b, h1)) : b ∈ binsGet h bin := by
  unfold pull at hp
  rcases hscan : pull_scan h size (binsGet h bin) with ⟨ob, rest⟩
  rw [hscan] at hp
  cases ob with
  | none => simp at hp
  | some x =>
    simp at hp
    have : x = b := hp.1
    subst this
    exact pull_scan_some_mem (by rw [hscan])

theorem pull_none_state {h : Heap} {size bin : Nat} {r : Option Nat} {h1 : Heap}
    (hp : pull h size bin = (r, h1)) (hr : r = none) : h1 = h := by
  unfold pull at hp
  rcases hscan : pull_scan h size (binsGet h bin) with ⟨ob, rest⟩
  rw [hscan] at hp
  cases ob with
  | none =>
    simp at hp
    exact hp.2.symm
  | some x =>
    simp at hp
    rw [hp.1.symm] at hr
    simp at hr

theorem tryBins_some_mem {h : Heap} {size b : Nat} {h1 : Heap} :
    ∀ {fuel bin : Nat}, tryBins h size bin fuel = (some b, h1) →
      ∃ i, b ∈ binsGet h i := by
  intro fuel
  induction fuel with
  | zero =>
    intro bin ht
    simp [tryBins] at ht
  | succ f ih =>
    intro bin ht
    unfold tryBins at ht
    by_cases hb : bin < NUM_BINS
    · rw [if_pos hb] at ht
      rcases hpull : pull h size bin with ⟨ob, h2⟩
      rw [hpull] at ht
      cases ob with
      | some x =>
        dsimp only at ht
        have hx : x = b := by
          have := congrArg Prod.fst ht
          simpa using this
        subst hx
        exact ⟨bin, pull_some_mem hpull⟩
      | none =>
        dsimp only at ht
        have h2h : h2 = h := pull_none_state hpull rfl
        subst h2h
        exact ih ht
    · rw [if_neg hb] at ht
      simp at ht

theorem my_malloc_append_some {h : Heap} {size p : Nat} {h1 : Heap}
    (hm : my_malloc_append h size = (some p, h1)) :
    p = h.brk + HEADER_SIZE := by
  unfold my_malloc_append mem_sbrk at hm
  by_cases hcap : h.brk + size ≤ h.cap
  · rw [if_pos hcap] at hm
    dsimp only at hm
    by_cases hbrk : h.brk = U64 - 1
    · rw [if_pos hbrk] at hm
      simp at hm
    · rw [if_neg hbrk] at hm
      have := congrArg Prod.fst hm
      simpa using this.symm
  · rw [if_neg hcap] at hm
    dsimp only at hm
    rw [if_pos rfl] at hm
    simp at hm

theorem my_malloc_frontier_some {h : Heap} {size p : Nat} {h1 : Heap}
    (hm : my_malloc_frontier h size = (some p, h1)) :
    p = h.prevAlloc + HEADER_SIZE := by
  unfold my_malloc_frontier at hm
  dsimp only at hm
  have := congrArg Prod.fst hm
  simpa using this.symm

theorem tryBins_none_state {h : Heap} {size : Nat} {h1 : Heap} :
    ∀ {fuel bin : Nat}, tryBins h size bin fuel = (none, h1) → h1 = h := by
  intro fuel
  induction fuel with
  | zero =>
    intro bin ht
    simp [tryBins] at ht
    exact ht.symm
  | succ f ih =>
    intro bin ht
    unfold tryBins at ht
    by_cases hb : bin < NUM_BINS
    · rw [if_pos hb] at ht
      rcases hpull : pull h size bin with ⟨ob, h2⟩
      rw [hpull] at ht
      cases ob with
      | some x => simp at ht
      | none =>
        dsimp only at ht
        have h2h : h2 = h := pull_none_state hpull rfl
        subst h2h
        exact ih ht
    · rw [if_neg hb] at ht
      simp at ht
      exact ht.symm

theorem my_malloc_some_aligned {h : Heap} {n p : Nat} {h1 : Heap}
    (hA : AlignedHeap h) (hm : my_malloc h n = (some p, h1)) :
    p % ALIGNMENT = 0 := by
  obtain ⟨hbrk, hpa, hbins⟩ := hA
  unfold my_malloc at hm
  dsimp only at hm
  by_cases hne : h.hi ≠ h.lo
  · rw [if_pos hne] at hm
    rcases htb : tryBins h (if n < LINKS_SIZE then MIN_STORAGE else round_up n)
        (block_bin (if n < LINKS_SIZE then MIN_STORAGE else round_up n))
        NUM_BINS with ⟨ob, h2⟩
    rw [htb] at hm
    cases ob with
    | some b =>
      dsimp only at hm
      obtain ⟨i, hmem⟩ := tryBins_some_mem htb
      have hb8 : b % ALIGNMENT = 0 := by
        by_cases hilen : i < h.bins.length
        · exact hbins (h.bins.getD i []) (by
            rw [List.getD_eq_getElem _ _ hilen]
            exact List.getElem_mem hilen) b (by
              unfold binsGet at hmem
              exact hmem)
        · unfold binsGet at hmem
          rw [List.getD_eq_default] at hmem
          · simp at hmem
          · omega
      have hp : p = b + HEADER_SIZE := by
        have := congrArg Prod.fst hm
        simpa using this.symm
      rw [hp]
      unfold HEADER_SIZE ALIGNMENT at *
      omega
    | none =>
      dsimp only at hm
      have h2h : h2 = h := tryBins_none_state htb
      subst h2h
      by_cases hfree : block_is_free h2 h2.prevAlloc = true
      · rw [if_pos hfree] at hm
        have hp := my_malloc_frontier_some hm
        rw [hp]
        have := hpa hne
        unfold HEADER_SIZE ALIGNMENT at *
        omega
      · rw [if_neg hfree] at hm
        have hp := my_malloc_append_some hm
        rw [hp]
        unfold HEADER_SIZE ALIGNMENT at *
        omega
  · rw [if_neg hne] at hm
    have hp := my_malloc_append_some hm
    rw [hp]
    unfold HEADER_SIZE ALIGNMENT at *
    omega

/-- C6.  On an aligned heap (aligned break, aligned frontier pointer, aligned
bin members), every non-null payload returned by `my_malloc` is a multiple of
`ALIGNMENT = 8`, for every request size including sizes below the minimum
payload; and every non-null payload returned by `my_realloc` on an aligned
payload is a multiple of `ALIGNMENT` as well. -/
theorem c6_payload_alignment (h : Heap) (n : Nat) (hA : AlignedHeap h) :
    (∀ p h1, my_malloc h n = (some p, h1) → p % ALIGNMENT = 0) ∧
    (∀ p0 q h1, p0 % ALIGNMENT = 0 → my_realloc h p0 n = (some q, h1) →
      q % ALIGNMENT = 0) := by
  constructor
  · intro p h1 hm
    exact my_malloc_some_aligned hA hm
  · intro p0 q h1 hp0 hm
    unfold my_realloc at hm
    by_cases hz : p0 = 0
    · rw [if_pos hz] at hm
      exact my_malloc_some_aligned hA hm
    · rw [if_neg hz] at hm
      by_cases hn0 : n = 0
      · rw [if_pos hn0] at hm
        simp at hm
      · rw [if_neg hn0] at hm
        dsimp only at hm
        by_cases heq : round_up n % U32 = block_size h (p0 - HEADER_SIZE)
        · rw [if_pos heq] at hm
          have : q = p0 := by
            have := congrArg Prod.fst hm
            simpa using this.symm
          rw [this]
          exact hp0
        · rw [if_neg heq] at hm
          by_cases hless : round_up n % U32 < block_size h (p0 - HEADER_SIZE)
          · rw [if_pos hless] at hm
            have : q = p0 := by
              have := congrArg Prod.fst hm
              simpa using this.symm
            rw [this]
            exact hp0
          · rw [if_neg hless] at hm
            by_cases hfr : right h (p0 - HEADER_SIZE) = h.hi
            · rw [if_pos hfr] at hm
              have : q = p0 := by
                have := congrArg Prod.fst hm
                simpa using this.symm
              rw [this]
              exact hp0
            · rw [if_neg hfr] at hm
              rcases hmal : my_malloc h n with ⟨or, h2⟩
              rw [hmal] at hm
              cases or with
              | none => simp at hm
              | some q2 =>
                dsimp only at hm
                have hq : q = q2 := by
                  have := congrArg Prod.fst hm
                  simpa using this.symm
                rw [hq]
                exact my_malloc_some_aligned hA hmal

/-- Witness for C6: on the aligned heap `hC6`, requests of 1 byte through
`my_malloc` and a grow-by-move through `my_realloc` both may be exercised; the
theorem is applied with the concrete alignment facts discharged. -/
theorem c6_payload_alignment_witness :
    AlignedHeap hC6 ∧
      ((∀ p h1, my_malloc hC6 1 = (some p, h1) → p % ALIGNMENT = 0) ∧
        (∀ p0 q h1, p0 % ALIGNMENT = 0 → my_realloc hC6 p0 1 = (some q, h1) →
          q % ALIGNMENT = 0)) :=
  ⟨⟨by decide, by decide, by decide⟩,
    c6_payload_alignment hC6 1 ⟨by decide, by decide, by decide⟩⟩

theorem chainSeg_le {h : Heap} :
    ∀ {xs : List Nat} {s e : Nat}, chainSeg h xs s e = true → s ≤ e := by
  intro xs
  induction xs with
  | nil =>
    intro s e hc
    unfold chainSeg at hc
    simp at hc
    omega
  | cons b rest ih =>
    intro s e hc
    unfold chainSeg at hc
    simp only [Bool.and_eq_true] at hc
    have := ih hc.2
    omega

theorem chainSeg_append_elim {h : Heap} :
    ∀ {xs ys : List Nat} {s e : Nat}, chainSeg h (xs ++ ys) s e = true →
      ∃ m, chainSeg h xs s m = true ∧ chainSeg h ys m e = true := by
  intro xs
  induction xs with
  | nil =>
    intro ys s e hc
    exact ⟨s, by simp [chainSeg], hc⟩
  | cons b rest ih =>
    intro ys s e hc
    rw [List.cons_append] at hc
    unfold chainSeg at hc
    simp only [Bool.and_eq_true] at hc
    obtain ⟨m, hm1, hm2⟩ := ih hc.2
    refine ⟨m, ?_, hm2⟩
    unfold chainSeg
    simp only [Bool.and_eq_true]
    exact ⟨hc.1, hm1⟩

theorem chainSeg_append_intro {h : Heap} :
    ∀ {xs ys : List Nat} {s m e : Nat}, chainSeg h xs s m = true →
      chainSeg h ys m e = true → chainSeg h (xs ++ ys) s e = true := by
  intro xs
  induction xs with
  | nil =>
    intro ys s m e h1 h2
    unfold chainSeg at h1
    simp at h1
    subst h1
    simpa using h2
  | cons b rest ih =>
    intro ys s m e h1 h2
    rw [List.cons_append]
    unfold chainSeg at h1 ⊢
    simp only [Bool.and_eq_true] at h1 ⊢
    exact ⟨h1.1, ih h1.2 h2⟩

theorem chainSeg_bounds {h : Heap} :
    ∀ {xs : List Nat} {s e : Nat}, chainSeg h xs s e = true →
      ∀ x ∈ xs, s ≤ x ∧ x + block_size h x ≤ e ∧ 24 ≤ block_size h x ∧
        block_size h x % 8 = 0 := by
  intro xs
  induction xs with
  | nil =>
    intro s e _ x hx
    simp at hx
  | cons b rest ih =>
    intro s e hc x hx
    unfold chainSeg at hc
    simp only [Bool.and_eq_true] at hc
    obtain ⟨⟨⟨hbs, hble⟩, hmod⟩, hrest⟩ := hc
    have hbse : b = s := by simpa using hbs
    have h24 : 24 ≤ block_size h b := by simpa using hble
    have h8 : block_size h b % 8 = 0 := by simpa using hmod
    have hse := chainSeg_le hrest
    rcases List.mem_cons.1 hx with hxb | hxr
    · subst hxb
      subst hbse
      exact ⟨le_refl x, by omega, h24, h8⟩
    · have := ih hrest x hxr
      subst hbse
      omega

theorem chainSeg_congr {h h2 : Heap} :
    ∀ {xs : List Nat} {s e : Nat},
      (∀ x ∈ xs, block_size h2 x = block_size h x) →
      chainSeg h xs s e = true → chainSeg h2 xs s e = true := by
  intro xs
  induction xs with
  | nil =>
    intro s e _ hc
    simpa [chainSeg] using hc
  | cons b rest ih =>
    intro s e hcong hc
    unfold chainSeg at hc ⊢
    simp only [Bool.and_eq_true] at hc ⊢
    obtain ⟨⟨⟨hbs, hble⟩, hmod⟩, hrest⟩ := hc
    have hbb : block_size h2 b = block_size h b :=
      hcong b (List.mem_cons_self b rest)
    refine ⟨⟨⟨hbs, by rw [hbb]; exact hble⟩, by rw [hbb]; exact hmod⟩, ?_⟩
    rw [hbb]
    exact ih (fun x hx => hcong x (List.mem_cons_of_mem b hx)) hrest

theorem chain'_congr_mem {α : Type} {R S : α → α → Prop} :
    ∀ {l : List α}, (∀ x ∈ l, ∀ y ∈ l, R x y → S x y) →
      List.Chain' R l → List.Chain' S l := by
  intro l
  induction l with
  | nil =>
    intro _ _
    exact List.chain'_nil
  | cons x rest ih =>
    intro hrs hc
    rw [List.chain'_cons'] at hc ⊢
    refine ⟨?_, ?_⟩
    · intro y hy
      have hyl : y ∈ rest := by
        cases rest with
        | nil => simp at hy
        | cons z zs =>
          simp at hy
          simp [hy]
      exact hrs x (List.mem_cons_self x rest) y (List.mem_cons_of_mem x hyl)
        (hc.1 y hy)
    · exact ih (fun u hu v hv => hrs u (List.mem_cons_of_mem x hu) v
        (List.mem_cons_of_mem x hv)) hc.2

theorem coalesce_eq (h : Heap) (b : Nat) :
    coalesce h b = coalesce_left (coalesce_right h b) b := rfl

theorem coalesce_right_skip {h : Heap} {b : Nat}
    (hc : ¬ (right h b < h.hi ∧ block_is_free h (right h b) = true)) :
    coalesce_right h b = h := by
  unfold coalesce_right
  dsimp only
  rw [if_neg hc]

theorem coalesce_left_skip {h : Heap} {b : Nat}
    (hc : ¬ (h.lo ≤ left h b ∧ block_is_free h (left h b) = true)) :
    coalesce_left h b = push h b := by
  unfold coalesce_left
  dsimp only
  rw [if_neg hc]

theorem push_spec {g : Heap} {x : Nat} (h8 : 8 ≤ block_size g x) :
    sizeField (push g x) x = block_size g x + 1 ∧
    (∀ z, (z < x + 4 ∨ x + 8 ≤ z) →
      (z < x + block_size g x ∨ x + block_size g x + 4 ≤ z) →
      (push g x).mem z = g.mem z) ∧
    (push g x).lo = g.lo ∧ (push g x).hi = g.hi ∧
    (push g x).brk = g.brk ∧ (push g x).cap = g.cap ∧
    (push g x).prevAlloc = g.prevAlloc := by
  refine ⟨?_, ?_, by simp, by simp, by simp, by simp, by simp⟩
  · have := sizeField_set_free_self (h := g) (b := x) (f := 1) (by omega) h8
    have hpm : sizeField (push g x) x = sizeField (block_set_free g x 1) x :=
      sizeField_congr_mem (push_mem g x) x
    rw [hpm, this]
    unfold block_size
    omega
  · intro z hz1 hz2
    rw [push_mem]
    by_cases hlt : x + block_size g x < g.hi
    · rw [block_set_free_mem_lt (by omega) hlt]
      rw [store32_apply_out (by omega), store32_apply_out (by omega)]
    · rw [block_set_free_mem_ge (by omega) hlt]
      rw [store32_apply_out (by omega)]

theorem coalesce_right_merge {h : Heap} {a : Nat}
    (hCR : right h a < h.hi ∧ block_is_free h (right h a) = true)
    (hfree : block_is_free h a = false)
    (h24a : 24 ≤ block_size h a) (h8a : block_size h a % 8 = 0)
    (h24c : 24 ≤ block_size h (right h a))
    (h8c : block_size h (right h a) % 8 = 0)
    (hcbnd : right h a + block_size h (right h a) ≤ h.hi)
    (hsum : block_size h a + block_size h (right h a) < U32) :
    block_size (coalesce_right h a) a =
        block_size h a + block_size h (right h a) ∧
    block_is_free (coalesce_right h a) a = false ∧
    prevSizeField (coalesce_right h a) a = prevSizeField h a ∧
    (∀ x, (x < a + 4 ∨ a + 8 ≤ x) →
      (x < right h a + block_size h (right h a) ∨
        right h a + block_size h (right h a) + 4 ≤ x) →
      (coalesce_right h a).mem x = h.mem x) ∧
    (coalesce_right h a).lo = h.lo ∧ (coalesce_right h a).hi = h.hi ∧
    (coalesce_right h a).brk = h.brk ∧ (coalesce_right h a).cap = h.cap ∧
    ((a + (block_size h a + block_size h (right h a)) = h.hi →
        (coalesce_right h a).prevAlloc = a) ∧
      (a + (block_size h a + block_size h (right h a)) ≠ h.hi →
        (coalesce_right h a).prevAlloc = h.prevAlloc)) := by
  set sa := block_size h a with hsa
  set sc := block_size h (right h a) with hsc
  have hra : right h a = a + sa := rfl
  unfold coalesce_right
  dsimp only
  rw [if_pos hCR]
  have hexmem : (extract h (right h a)).mem = h.mem := extract_mem _ _
  have hbsa : block_size (extract h (right h a)) a = sa :=
    bsize_of_sizeField (sizeField_congr_mem hexmem a)
  have hbsc : block_size (extract h (right h a)) (right h a) = sc :=
    bsize_of_sizeField (sizeField_congr_mem hexmem (right h a))
  rw [hbsa, hbsc]
  set E := extract h (right h a) with hE
  have hev : (sa + sc) % 2 = 0 := by omega
  have h8S : 8 ≤ sa + sc := by omega
  have hbsB : block_size (block_set_size E a (sa + sc)) a = sa + sc :=
    block_size_set_size_self hev hsum h8S
  have hEhi : E.hi = h.hi := by
    rw [hE]
    simp
  have hElo : E.lo = h.lo := by
    rw [hE]
    simp
  have hEpa : E.prevAlloc = h.prevAlloc := by
    rw [hE]
    simp
  have hrB : right (block_set_size E a (sa + sc)) a = a + (sa + sc) :=
    right_set_size_self hev hsum h8S
  have hmemB : ∀ x, (x < a + 4 ∨ a + 8 ≤ x) →
      (x < right h a + sc ∨ right h a + sc + 4 ≤ x) →
      (block_set_size E a (sa + sc)).mem x = h.mem x := by
    intro x hx1 hx2
    rw [hra] at hx2
    by_cases hlt : a + (sa + sc) < E.hi
    · rw [block_set_size_mem_lt hev hsum hlt]
      rw [store32_apply_out (show x < a + (sa + sc) ∨ a + (sa + sc) + 4 ≤ x
        by omega)]
      rw [store32_apply_out (show x < a + 4 ∨ a + 4 + 4 ≤ x by omega), hexmem]
    · rw [block_set_size_mem_ge hev hsum hlt]
      rw [store32_apply_out (show x < a + 4 ∨ a + 4 + 4 ≤ x by omega), hexmem]
  refine ⟨?_, ?_, ?_, ?_, ?_, ?_, ?_, ?_, ?_, ?_⟩
  · rw [bsize_of_sizeField (sizeField_congr_mem (block_update_last_mem _ _) a)]
    exact hbsB
  · have h1 : block_is_free (block_update_last
        (block_set_size E a (sa + sc)) a) a =
        block_is_free (block_set_size E a (sa + sc)) a :=
      free_of_sizeField (sizeField_congr_mem (block_update_last_mem _ _) a)
    rw [h1, free_set_size_self hev hsum h8S,
      free_of_sizeField (sizeField_congr_mem hexmem a)]
    exact hfree
  · rw [prevSizeField_congr_mem (block_update_last_mem _ _) a]
    have hdef : prevSizeField (block_set_size E a (sa + sc)) a =
        load32 (block_set_size E a (sa + sc)).mem a := rfl
    rw [hdef, load32_set_size_other hev hsum (Or.inl (by omega))
      (Or.inl (by omega)), hexmem]
    rfl
  · intro x hx1 hx2
    rw [block_update_last_mem]
    exact hmemB x hx1 hx2
  · simp [hElo]
  · simp [hEhi]
  · rw [hE]
    simp
  · rw [hE]
    simp
  · intro heq
    unfold block_update_last
    rw [hrB]
    simp only [block_set_size_hi, hEhi]
    rw [if_pos heq]
  · intro hne
    unfold block_update_last
    rw [hrB]
    simp only [block_set_size_hi, hEhi]
    rw [if_neg hne]
    simp [hEpa]

theorem coalesce_left_merge {g : Heap} {a b : Nat}
    (hb : b + block_size g b = a)
    (hmirb : prevSizeField g a = sizeField g b)
    (hfb : block_is_free g b = true)
    (hlob : g.lo ≤ b)
    (h24b : 24 ≤ block_size g b) (h8b : block_size g b % 8 = 0)
    (h24a : 24 ≤ block_size g a) (h8a : block_size g a % 8 = 0)
    (hsum : block_size g b + block_size g a < U32) :
    sizeField (coalesce_left g a) b = block_size g b + block_size g a + 1 ∧
    (∀ x, (x < b + 4 ∨ b + 8 ≤ x) →
      (x < b + (block_size g b + block_size g a) ∨
        b + (block_size g b + block_size g a) + 4 ≤ x) →
      (coalesce_left g a).mem x = g.mem x) ∧
    (coalesce_left g a).lo = g.lo ∧ (coalesce_left g a).hi = g.hi ∧
    (coalesce_left g a).brk = g.brk ∧ (coalesce_left g a).cap = g.cap ∧
    ((b + (block_size g b + block_size g a) = g.hi →
        (coalesce_left g a).prevAlloc = b) ∧
      (b + (block_size g b + block_size g a) ≠ g.hi →
        (coalesce_left g a).prevAlloc = g.prevAlloc)) := by
  set sb := block_size g b with hsb
  set sa := block_size g a with hsa2
  have hleft : left g a = b := by
    unfold left block_prev_size
    rw [hmirb]
    have hfold : sizeField g b - sizeField g b % 2 = sb := rfl
    rw [hfold]
    omega
  unfold coalesce_left
  dsimp only
  rw [hleft, if_pos ⟨hlob, hfb⟩]
  have hexmem : (extract g b).mem = g.mem := extract_mem _ _
  have hbsb : block_size (extract g b) b = sb :=
    bsize_of_sizeField (sizeField_congr_mem hexmem b)
  have hbsa : block_size (extract g b) a = sa :=
    bsize_of_sizeField (sizeField_congr_mem hexmem a)
  rw [hbsb, hbsa]
  set E := extract g b with hE
  have hev : (sb + sa) % 2 = 0 := by omega
  have h8S : 8 ≤ sb + sa := by omega
  have hEhi : E.hi = g.hi := by
    rw [hE]
    simp
  have hElo : E.lo = g.lo := by
    rw [hE]
    simp
  have hEpa : E.prevAlloc = g.prevAlloc := by
    rw [hE]
    simp
  have hbsB : block_size (block_set_size E b (sb + sa)) b = sb + sa :=
    block_size_set_size_self hev hsum h8S
  have hrB : right (block_set_size E b (sb + sa)) b = b + (sb + sa) :=
    right_set_size_self hev hsum h8S
  have hmemB : ∀ x, (x < b + 4 ∨ b + 8 ≤ x) →
      (x < b + (sb + sa) ∨ b + (sb + sa) + 4 ≤ x) →
      (block_set_size E b (sb + sa)).mem x = g.mem x := by
    intro x hx1 hx2
    by_cases hlt : b + (sb + sa) < E.hi
    · rw [block_set_size_mem_lt hev hsum hlt]
      rw [store32_apply_out (show x < b + (sb + sa) ∨ b + (sb + sa) + 4 ≤ x
        by omega)]
      rw [store32_apply_out (show x < b + 4 ∨ b + 4 + 4 ≤ x by omega), hexmem]
    · rw [block_set_size_mem_ge hev hsum hlt]
      rw [store32_apply_out (show x < b + 4 ∨ b + 4 + 4 ≤ x by omega), hexmem]
  set G := block_update_last (block_set_size E b (sb + sa)) b with hG
  have hGmem : G.mem = (block_set_size E b (sb + sa)).mem := by
    rw [hG]
    exact block_update_last_mem _ _
  have hGbs : block_size G b = sb + sa := by
    rw [bsize_of_sizeField (sizeField_congr_mem hGmem b)]
    exact hbsB
  have hGhi : G.hi = g.hi := by
    rw [hG]
    simp [hEhi]
  have hGlo : G.lo = g.lo := by
    rw [hG]
    simp [hElo]
  obtain ⟨hp1, hp2, hp3, hp4, hp5, hp6, hp7⟩ :=
    push_spec (g := G) (x := b) (by omega)
  refine ⟨?_, ?_, ?_, ?_, ?_, ?_, ?_, ?_⟩
  · rw [hp1, hGbs]
  · intro x hx1 hx2
    rw [hp2 x (by omega) (by rw [hGbs]; omega), hGmem]
    exact hmemB x hx1 hx2
  · rw [hp3, hGlo]
  · rw [hp4, hGhi]
  · rw [hp5, hG]
    simp [hE]
  · rw [hp6, hG]
    simp [hE]
  · intro heq
    rw [hp7, hG]
    unfold block_update_last
    rw [hrB]
    simp only [block_set_size_hi, hEhi]
    rw [if_pos heq]
  · intro hne
    rw [hp7, hG]
    unfold block_update_last
    rw [hrB]
    simp only [block_set_size_hi, hEhi]
    rw [if_neg hne]
    simp [hEpa]

theorem load32_eq_of_bytes {m1 m2 : Nat → Nat} {x : Nat}
    (h0 : m1 x = m2 x) (h1 : m1 (x + 1) = m2 (x + 1))
    (h2 : m1 (x + 2) = m2 (x + 2)) (h3 : m1 (x + 3) = m2 (x + 3)) :
    load32 m1 x = load32 m2 x := by
  unfold load32
  rw [h0, h1, h2, h3]

theorem chain'_boundary {α : Type} {R : α → α → Prop} {xs ys : List α} {y : α}
    (hc : List.Chain' R (xs ++ y :: ys)) : ∀ x ∈ xs.getLast?, R x y :=
  fun x hx => (List.chain'_append.1 hc).2.2 x hx y (by simp)

theorem rebuild_chain {h hF : Heap} {us vs : List Nat} {L E : Nat}
    (hus : chainSeg h us h.lo L = true)
    (hvs : chainSeg h vs E h.hi = true)
    (hfany : ∀ x, x ∈ us ∨ x ∈ vs → sizeField hF x = sizeField h x)
    (hLbs : L + block_size hF L = E)
    (h24L : 24 ≤ block_size hF L) (h8L : block_size hF L % 8 = 0)
    (huslast : ∀ e ∈ us.getLast?, block_is_free h e = false)
    (hvshead : ∀ d ∈ vs.head?, block_is_free h d = false)
    (hnadjus : NoAdjFree h us) (hnadjvs : NoAdjFree h vs) :
    chainSeg hF (us ++ L :: vs) h.lo h.hi = true ∧
      NoAdjFree hF (us ++ L :: vs) := by
  constructor
  · apply chainSeg_append_intro (m := L)
    · exact chainSeg_congr
        (fun x hx => bsize_of_sizeField (hfany x (Or.inl hx))) hus
    · have hb1 : (L == L) = true := by simp
      have hb2 : Nat.ble 24 (block_size hF L) = true := by simpa using h24L
      have hb3 : (block_size hF L % 8 == 0) = true := by simpa using h8L
      have hb4 : chainSeg hF vs (L + block_size hF L) h.hi = true := by
        rw [hLbs]
        exact chainSeg_congr
          (fun x hx => bsize_of_sizeField (hfany x (Or.inr hx))) hvs
      unfold chainSeg
      rw [hb1, hb2, hb3, hb4]
      rfl
  · unfold NoAdjFree
    rw [List.chain'_append]
    refine ⟨?_, ?_, ?_⟩
    · exact chain'_congr_mem (fun x hx y hy hr => by
        rw [free_of_sizeField (hfany x (Or.inl hx)),
          free_of_sizeField (hfany y (Or.inl hy))]
        exact hr) hnadjus
    · rw [List.chain'_cons']
      constructor
      · intro d hd
        rw [free_of_sizeField (hfany d (Or.inr (by
          cases vs with
          | nil => simp at hd
          | cons v vt =>
            simp at hd
            simp [hd])))]
        intro hcon
        have := hvshead d hd
        rw [this] at hcon
        simp at hcon
      · exact chain'_congr_mem (fun x hx y hy hr => by
          rw [free_of_sizeField (hfany x (Or.inr hx)),
            free_of_sizeField (hfany y (Or.inr hy))]
          exact hr) hnadjvs
    · intro e he y hy
      have hyL : y = L := by
        simp at hy
        exact hy.symm
      subst hyL
      rw [free_of_sizeField (hfany e (Or.inl (List.mem_of_mem_getLast? he)))]
      intro hcon
      have := huslast e he
      rw [this] at hcon
      simp at hcon

theorem even_of_not_free {h : Heap} {a : Nat} (hf : block_is_free h a = false) :
    sizeField h a % 2 = 0 := by
  unfold block_is_free at hf
  rcases Nat.mod_two_eq_zero_or_one (sizeField h a) with h0 | h1
  · exact h0
  · rw [h1] at hf
    simp at hf

theorem coalesce_left_push_spec {h g : Heap} {a E : Nat} {us vs : List Nat}
    (hgu : chainSeg h us h.lo a = true)
    (hgv : chainSeg h vs E h.hi = true)
    (hEa : a + block_size g a = E)
    (h24 : 24 ≤ block_size g a) (h8 : block_size g a % 8 = 0)
    (hframe_g : ∀ x, x < a ∨ E + 4 ≤ x → g.mem x = h.mem x)
    (huslast : ∀ e ∈ us.getLast?, block_is_free h e = false)
    (hvshead : ∀ d ∈ vs.head?, block_is_free h d = false)
    (hnadjus : NoAdjFree h us) (hnadjvs : NoAdjFree h vs)
    (hnCL : ¬ (g.lo ≤ left g a ∧ block_is_free g (left g a) = true))
    (hglo : g.lo = h.lo) (hghi : g.hi = h.hi)
    (hgbrk : g.brk = h.brk) (hgcap : g.cap = h.cap) :
    chainSeg (coalesce_left g a) (us ++ a :: vs) h.lo h.hi = true ∧
    NoAdjFree (coalesce_left g a) (us ++ a :: vs) ∧
    (coalesce_left g a).lo = h.lo ∧ (coalesce_left g a).hi = h.hi ∧
    (coalesce_left g a).brk = h.brk ∧ (coalesce_left g a).cap = h.cap ∧
    (∀ x, x < a ∨ E + 4 ≤ x → (coalesce_left g a).mem x = h.mem x) ∧
    a + block_size (coalesce_left g a) a = E ∧
    block_is_free (coalesce_left g a) a = true ∧
    (coalesce_left g a).prevAlloc = g.prevAlloc := by
  rw [coalesce_left_skip hnCL]
  obtain ⟨hp1, hp2, hp3, hp4, hp5, hp6, hp7⟩ :=
    push_spec (g := g) (x := a) (by omega)
  have hbsF : block_size (push g a) a = block_size g a := by
    have hdef : block_size (push g a) a = sizeField (push g a) a -
        sizeField (push g a) a % 2 := rfl
    rw [hdef, hp1]
    omega
  have hfrF : ∀ x, x < a ∨ E + 4 ≤ x → (push g a).mem x = h.mem x := by
    intro x hx
    rw [hp2 x (by omega) (by omega), hframe_g x hx]
  have hfany : ∀ x, x ∈ us ∨ x ∈ vs →
      sizeField (push g a) x = sizeField h x := by
    intro x hx
    rcases hx with hx | hx
    · have hb := chainSeg_bounds hgu x hx
      apply load32_eq_of_bytes
      · exact hfrF (x + 4) (by omega)
      · exact hfrF (x + 4 + 1) (by omega)
      · exact hfrF (x + 4 + 2) (by omega)
      · exact hfrF (x + 4 + 3) (by omega)
    · have hb := chainSeg_bounds hgv x hx
      apply load32_eq_of_bytes
      · exact hfrF (x + 4) (by omega)
      · exact hfrF (x + 4 + 1) (by omega)
      · exact hfrF (x + 4 + 2) (by omega)
      · exact hfrF (x + 4 + 3) (by omega)
  obtain ⟨hc, hn⟩ := rebuild_chain hgu hgv hfany (by rw [hbsF]; omega)
    (by omega) (by rw [hbsF]; omega) huslast hvshead hnadjus hnadjvs
  refine ⟨hc, hn, by rw [hp3, hglo], by rw [hp4, hghi], by rw [hp5, hgbrk],
    by rw [hp6, hgcap], hfrF, by rw [hbsF]; omega, ?_, hp7⟩
  unfold block_is_free
  rw [hp1]
  have : (block_size g a + 1) % 2 = 1 := by omega
  rw [this]
  rfl

theorem coalesce_left_merge_spec {h g : Heap} {a b E : Nat} {us vs : List Nat}
    (hgu : chainSeg h us h.lo b = true)
    (hgv : chainSeg h vs E h.hi = true)
    (hb_pos : b + block_size g b = a)
    (hEa : a + block_size g a = E)
    (h24a : 24 ≤ block_size g a) (h8a : block_size g a % 8 = 0)
    (h24b : 24 ≤ block_size g b) (h8b : block_size g b % 8 = 0)
    (hsum : block_size g b + block_size g a < U32)
    (hmirb : prevSizeField g a = sizeField g b)
    (hfb : block_is_free g b = true)
    (hlob : g.lo ≤ b)
    (hframe_g : ∀ x, x < b ∨ E + 4 ≤ x → g.mem x = h.mem x)
    (huslast : ∀ e ∈ us.getLast?, block_is_free h e = false)
    (hvshead : ∀ d ∈ vs.head?, block_is_free h d = false)
    (hnadjus : NoAdjFree h us) (hnadjvs : NoAdjFree h vs)
    (hglo : g.lo = h.lo) (hghi : g.hi = h.hi)
    (hgbrk : g.brk = h.brk) (hgcap : g.cap = h.cap) :
    chainSeg (coalesce_left g a) (us ++ b :: vs) h.lo h.hi = true ∧
    NoAdjFree (coalesce_left g a) (us ++ b :: vs) ∧
    (coalesce_left g a).lo = h.lo ∧ (coalesce_left g a).hi = h.hi ∧
    (coalesce_left g a).brk = h.brk ∧ (coalesce_left g a).cap = h.cap ∧
    (∀ x, x < b ∨ E + 4 ≤ x → (coalesce_left g a).mem x = h.mem x) ∧
    b + block_size (coalesce_left g a) b = E ∧
    block_is_free (coalesce_left g a) b = true ∧
    ((E = h.hi → (coalesce_left g a).prevAlloc = b) ∧
      (E ≠ h.hi → (coalesce_left g a).prevAlloc = g.prevAlloc)) := by
  obtain ⟨hm1, hm2, hm3, hm4, hm5, hm6, hm7⟩ :=
    coalesce_left_merge hb_pos hmirb hfb hlob h24b h8b h24a h8a hsum
  have hbsF : block_size (coalesce_left g a) b =
      block_size g b + block_size g a := by
    have hdef : block_size (coalesce_left g a) b =
        sizeField (coalesce_left g a) b -
          sizeField (coalesce_left g a) b % 2 := rfl
    rw [hdef, hm1]
    omega
  have hfrF : ∀ x, x < b ∨ E + 4 ≤ x → (coalesce_left g a).mem x = h.mem x := by
    intro x hx
    rw [hm2 x (by omega) (by omega), hframe_g x hx]
  have hfany : ∀ x, x ∈ us ∨ x ∈ vs →
      sizeField (coalesce_left g a) x = sizeField h x := by
    intro x hx
    rcases hx with hx | hx
    · have hbd := chainSeg_bounds hgu x hx
      apply load32_eq_of_bytes
      · exact hfrF (x + 4) (by omega)
      · exact hfrF (x + 4 + 1) (by omega)
      · exact hfrF (x + 4 + 2) (by omega)
      · exact hfrF (x + 4 + 3) (by omega)
    · have hbd := chainSeg_bounds hgv x hx
      apply load32_eq_of_bytes
      · exact hfrF (x + 4) (by omega)
      · exact hfrF (x + 4 + 1) (by omega)
      · exact hfrF (x + 4 + 2) (by omega)
      · exact hfrF (x + 4 + 3) (by omega)
  obtain ⟨hc, hn⟩ := rebuild_chain hgu hgv hfany (by rw [hbsF]; omega)
    (by omega) (by rw [hbsF]; omega) huslast hvshead hnadjus hnadjvs
  refine ⟨hc, hn, by rw [hm3, hglo], by rw [hm4, hghi], by rw [hm5, hgbrk],
    by rw [hm6, hgcap], hfrF, by rw [hbsF]; omega, ?_, ?_, ?_⟩
  · unfold block_is_free
    rw [hm1]
    have : (block_size g b + block_size g a + 1) % 2 = 1 := by omega
    rw [this]
    rfl
  · intro hE
    have : b + (block_size g b + block_size g a) = g.hi := by
      rw [hghi]
      omega
    exact hm7.1 this
  · intro hE
    have : b + (block_size g b + block_size g a) ≠ g.hi := by
      rw [hghi]
      omega
    exact hm7.2 this

theorem left_congr {h1 h2 : Heap} {a : Nat}
    (he : prevSizeField h1 a = prevSizeField h2 a) : left h1 a = left h2 a := by
  unfold left block_prev_size
  rw [he]

theorem left_phase {h g : Heap} {a E : Nat} {ts1 vs : List Nat}
    (hchu0 : chainSeg h ts1 h.lo a = true)
    (hgv : chainSeg h vs E h.hi = true)
    (hmirror_pair : ∀ b ∈ ts1.getLast?, prevSizeField h a = sizeField h b)
    (hhz1 : ts1 = [] → prevSizeField h a = 0)
    (hnadjus : NoAdjFree h ts1) (hnadjvs : NoAdjFree h vs)
    (hvshead : ∀ d ∈ vs.head?, block_is_free h d = false)
    (hfree : block_is_free h a = false)
    (hbs24 : 24 ≤ block_size g a) (hbs8 : block_size g a % 8 = 0)
    (hfa_g : block_is_free g a = false)
    (hprev_g : prevSizeField g a = prevSizeField h a)
    (hEa : a + block_size g a = E)
    (hframe_g : ∀ x, x < a ∨ E + 4 ≤ x → g.mem x = h.mem x)
    (hglo : g.lo = h.lo) (hghi : g.hi = h.hi)
    (hgbrk : g.brk = h.brk) (hgcap : g.cap = h.cap)
    (hEhi : E ≤ h.hi) (hspan : h.hi < h.lo + 2 ^ 28) :
    chainSeg (coalesce_left g a)
        (if h.lo ≤ left h a ∧ block_is_free h (left h a) = true
          then ts1 ++ vs else ts1 ++ a :: vs) h.lo h.hi = true ∧
    NoAdjFree (coalesce_left g a)
        (if h.lo ≤ left h a ∧ block_is_free h (left h a) = true
          then ts1 ++ vs else ts1 ++ a :: vs) ∧
    (coalesce_left g a).lo = h.lo ∧ (coalesce_left g a).hi = h.hi ∧
    (coalesce_left g a).brk = h.brk ∧ (coalesce_left g a).cap = h.cap ∧
    (∀ x, x < freedLo h a ∨ E + 4 ≤ x →
      (coalesce_left g a).mem x = h.mem x) ∧
    freedLo h a + block_size (coalesce_left g a) (freedLo h a) = E ∧
    block_is_free (coalesce_left g a) (freedLo h a) = true ∧
    freedLo h a ∈ (if h.lo ≤ left h a ∧ block_is_free h (left h a) = true
      then ts1 ++ vs else ts1 ++ a :: vs) ∧
    ((h.lo ≤ left h a ∧ block_is_free h (left h a) = true) →
      (E = h.hi → (coalesce_left g a).prevAlloc = freedLo h a) ∧
      (E ≠ h.hi → (coalesce_left g a).prevAlloc = g.prevAlloc)) ∧
    (¬ (h.lo ≤ left h a ∧ block_is_free h (left h a) = true) →
      (coalesce_left g a).prevAlloc = g.prevAlloc) := by
  have hU : U32 = 4294967296 := rfl
  have hlga : left g a = left h a := left_congr hprev_g
  rcases List.eq_nil_or_concat ts1 with rfl | ⟨ts1p, b, rfl⟩
  · -- no left neighbour: prev_size of the first block is 0
    have hp0 : prevSizeField h a = 0 := hhz1 rfl
    have hla : left h a = a := by
      unfold left block_prev_size
      rw [hp0]
      omega
    have hnCLh : ¬ (h.lo ≤ left h a ∧ block_is_free h (left h a) = true) := by
      rw [hla]
      rintro ⟨-, hcon⟩
      rw [hfree] at hcon
      simp at hcon
    have hnCL : ¬ (g.lo ≤ left g a ∧ block_is_free g (left g a) = true) := by
      rw [hlga, hla]
      rintro ⟨-, hcon⟩
      rw [hfa_g] at hcon
      simp at hcon
    have hFLo : freedLo h a = a := by
      unfold freedLo
      rw [if_neg hnCLh]
    obtain ⟨hc, hn, c3, c4, c5, c6, hfr, hsz, hfb, hpa⟩ :=
      coalesce_left_push_spec hchu0 hgv hEa hbs24 hbs8 hframe_g
        (by simp) hvshead hnadjus hnadjvs hnCL hglo hghi hgbrk hgcap
    rw [if_neg hnCLh, hFLo]
    exact ⟨hc, hn, c3, c4, c5, c6, hfr, hsz, hfb,
      by simp, fun hcon => absurd hcon hnCLh, fun _ => hpa⟩
  · -- a left neighbour b exists
    simp only [List.concat_eq_append] at hchu0 hmirror_pair hhz1 hnadjus ⊢
    obtain ⟨pb, hchp, hchb⟩ := chainSeg_append_elim hchu0
    unfold chainSeg at hchb
    simp only [Bool.and_eq_true] at hchb
    obtain ⟨⟨⟨hbpb, hble_b⟩, hmod_b⟩, hchb2⟩ := hchb
    have hbpb' : b = pb := by simpa using hbpb
    subst hbpb'
    have hbpos : b + block_size h b = a := by
      unfold chainSeg at hchb2
      simpa using hchb2
    have h24b : 24 ≤ block_size h b := by simpa using hble_b
    have h8b : block_size h b % 8 = 0 := by simpa using hmod_b
    have hlob : h.lo ≤ b := chainSeg_le hchp
    have hmirb : prevSizeField h a = sizeField h b :=
      hmirror_pair b (by simp)
    have hlb : left h a = b := by
      unfold left block_prev_size
      rw [hmirb]
      have hfold : sizeField h b - sizeField h b % 2 = block_size h b := rfl
      rw [hfold]
      omega
    have hfb_g : sizeField g b = sizeField h b := by
      apply load32_eq_of_bytes
      · exact hframe_g (b + 4) (by omega)
      · exact hframe_g (b + 4 + 1) (by omega)
      · exact hframe_g (b + 4 + 2) (by omega)
      · exact hframe_g (b + 4 + 3) (by omega)
    have hbs_gb : block_size g b = block_size h b := bsize_of_sizeField hfb_g
    by_cases hfb : block_is_free h b = true
    · -- the left neighbour is free: it absorbs the block
      have hCLh : h.lo ≤ left h a ∧ block_is_free h (left h a) = true := by
        rw [hlb]
        exact ⟨hlob, hfb⟩
      have hFLo : freedLo h a = b := by
        unfold freedLo
        rw [if_pos hCLh, hlb]
      have hfb_g' : block_is_free g b = true := by
        rw [free_of_sizeField hfb_g]
        exact hfb
      have huslast : ∀ e ∈ ts1p.getLast?, block_is_free h e = false := by
        intro e he
        have hpair := @chain'_boundary Nat
          (fun x y => ¬ (block_is_free h x = true ∧ block_is_free h y = true))
          ts1p [] b hnadjus e he
        cases hef : block_is_free h e with
        | false => rfl
        | true => exact absurd ⟨hef, hfb⟩ hpair
      have hnadjus' : NoAdjFree h ts1p :=
        List.Chain'.left_of_append hnadjus
      obtain ⟨hc, hn, c3, c4, c5, c6, hfr, hsz, hfbF, hpa⟩ :=
        coalesce_left_merge_spec hchp hgv
          (by rw [hbs_gb]; exact hbpos) hEa hbs24 hbs8
          (by rw [hbs_gb]; exact h24b) (by rw [hbs_gb]; exact h8b)
          (by rw [hbs_gb, hU]; omega)
          (by rw [hprev_g, hfb_g]; exact hmirb) hfb_g'
          (by rw [hglo]; exact hlob)
          (fun x hx => hframe_g x (by omega))
          huslast hvshead hnadjus' hnadjvs hglo hghi hgbrk hgcap
      rw [if_pos hCLh, hFLo]
      have hlist : (ts1p ++ [b]) ++ vs = ts1p ++ b :: vs := by simp
      rw [hlist]
      exact ⟨hc, hn, c3, c4, c5, c6, hfr, hsz, hfbF, by simp,
        fun _ => hpa, fun hcon => absurd hCLh hcon⟩
    · -- the left neighbour is allocated: just push
      have hnCLh : ¬ (h.lo ≤ left h a ∧ block_is_free h (left h a) = true) := by
        rw [hlb]
        rintro ⟨-, hcon⟩
        exact hfb hcon
      have hnCL : ¬ (g.lo ≤ left g a ∧ block_is_free g (left g a) = true) := by
        rw [hlga, hlb]
        rintro ⟨-, hcon⟩
        rw [free_of_sizeField hfb_g] at hcon
        exact hfb hcon
      have hFLo : freedLo h a = a := by
        unfold freedLo
        rw [if_neg hnCLh]
      have huslast : ∀ e ∈ ((ts1p ++ [b]).getLast?), block_is_free h e = false := by
        intro e he
        simp at he
        subst he
        cases hef : block_is_free h b with
        | false => rfl
        | true => exact absurd hef hfb
      obtain ⟨hc, hn, c3, c4, c5, c6, hfr, hsz, hfbF, hpa⟩ :=
        coalesce_left_push_spec hchu0 hgv hEa hbs24 hbs8 hframe_g
          huslast hvshead hnadjus hnadjvs hnCL hglo hghi hgbrk hgcap
      rw [if_neg hnCLh, hFLo]
      exact ⟨hc, hn, c3, c4, c5, c6, hfr, hsz, hfbF, by simp,
        fun hcon => absurd hcon hnCLh, fun _ => hpa⟩

theorem coalesce_spec (h : Heap) (ts1 ts2 : List Nat) (a : Nat)
    (hch : chainSeg h (ts1 ++ a :: ts2) h.lo h.hi = true)
    (hmir : MirrorOk h (ts1 ++ a :: ts2))
    (hnadj : NoAdjFree h (ts1 ++ a :: ts2))
    (hhz : HeadZero h (ts1 ++ a :: ts2))
    (hfree : block_is_free h a = false)
    (hspan : h.hi < h.lo + 2 ^ 28) :
    chainSeg (coalesce h a) (tsAfterFree h ts1 a ts2) h.lo h.hi = true ∧
    NoAdjFree (coalesce h a) (tsAfterFree h ts1 a ts2) ∧
    (coalesce h a).lo = h.lo ∧ (coalesce h a).hi = h.hi ∧
    (coalesce h a).brk = h.brk ∧ (coalesce h a).cap = h.cap ∧
    (∀ x, x < freedLo h a ∨ freedHi h a + 4 ≤ x →
      (coalesce h a).mem x = h.mem x) ∧
    freedLo h a + block_size (coalesce h a) (freedLo h a) = freedHi h a ∧
    block_is_free (coalesce h a) (freedLo h a) = true ∧
    freedLo h a ∈ tsAfterFree h ts1 a ts2 ∧
    (((h.lo ≤ left h a ∧ block_is_free h (left h a) = true) ∨
        (right h a < h.hi ∧ block_is_free h (right h a) = true)) →
      (freedHi h a = h.hi → (coalesce h a).prevAlloc = freedLo h a) ∧
      (freedHi h a ≠ h.hi → (coalesce h a).prevAlloc = h.prevAlloc)) ∧
    (¬ ((h.lo ≤ left h a ∧ block_is_free h (left h a) = true) ∨
        (right h a < h.hi ∧ block_is_free h (right h a) = true)) →
      (coalesce h a).prevAlloc = h.prevAlloc) := by
  have hU : U32 = 4294967296 := rfl
  obtain ⟨pa, hchu0, hchv0⟩ := chainSeg_append_elim hch
  have hchv0' := hchv0
  unfold chainSeg at hchv0'
  simp only [Bool.and_eq_true] at hchv0'
  obtain ⟨⟨⟨hapa, hble_a⟩, hmod_a⟩, hchv2⟩ := hchv0'
  have hapa' : a = pa := by simpa using hapa
  subst hapa'
  have h24a : 24 ≤ block_size h a := by simpa using hble_a
  have h8a : block_size h a % 8 = 0 := by simpa using hmod_a
  have hlo_a : h.lo ≤ a := chainSeg_le hchu0
  have hhi_a : a + block_size h a ≤ h.hi := chainSeg_le hchv2
  have hra : right h a = a + block_size h a := rfl
  have hmirror_pair : ∀ b ∈ ts1.getLast?, prevSizeField h a = sizeField h b :=
    chain'_boundary hmir
  have hhz1 : ts1 = [] → prevSizeField h a = 0 := by
    intro hnil
    exact hhz a (by rw [hnil]; simp)
  have hnadjus : NoAdjFree h ts1 := List.Chain'.left_of_append hnadj
  have hsufadj : List.Chain' (fun x y =>
      ¬ (block_is_free h x = true ∧ block_is_free h y = true)) (a :: ts2) :=
    List.Chain'.right_of_append hnadj
  rw [coalesce_eq]
  by_cases hCR : right h a < h.hi ∧ block_is_free h (right h a) = true
  · cases ts2 with
    | nil =>
      exfalso
      have hhe : a + block_size h a = h.hi := by
        unfold chainSeg at hchv2
        simpa using hchv2
      have h1 := hCR.1
      rw [hra] at h1
      omega
    | cons c ts2t =>
      have hchv2' := hchv2
      unfold chainSeg at hchv2'
      simp only [Bool.and_eq_true] at hchv2'
      obtain ⟨⟨⟨hcpos, hble_c⟩, hmod_c⟩, hchv3⟩ := hchv2'
      have hcpos' : c = a + block_size h a := by simpa using hcpos
      have h24c : 24 ≤ block_size h c := by simpa using hble_c
      have h8c : block_size h c % 8 = 0 := by simpa using hmod_c
      have hchi_c : a + block_size h a + block_size h c ≤ h.hi :=
        chainSeg_le hchv3
      have hrc : right h a = c := by
        rw [hra]
        omega
      have h24c' : 24 ≤ block_size h (right h a) := by
        rw [hrc]
        exact h24c
      have h8c' : block_size h (right h a) % 8 = 0 := by
        rw [hrc]
        exact h8c
      have hcbnd' : right h a + block_size h (right h a) ≤ h.hi := by
        rw [hrc]
        omega
      have hsum' : block_size h a + block_size h (right h a) < U32 := by
        rw [hrc, hU]
        omega
      obtain ⟨hA1, hA2, hA3, hA4, hA5, hA6, hA7, hA8, hA9, hA10⟩ :=
        coalesce_right_merge hCR hfree h24a h8a h24c' h8c' hcbnd' hsum'
      have hE : freedHi h a = right h a + block_size h (right h a) := by
        unfold freedHi
        rw [if_pos hCR]
      have hEn : freedHi h a = a + block_size h a + block_size h c := by
        rw [hE, hrc]
        omega
      have hbs_g : block_size (coalesce_right h a) a =
          block_size h a + block_size h c := by
        rw [hA1, hrc]
      have hEa : a + block_size (coalesce_right h a) a = freedHi h a := by
        omega
      have hframe_g : ∀ x, x < a ∨ freedHi h a + 4 ≤ x →
          (coalesce_right h a).mem x = h.mem x := by
        intro x hx
        exact hA4 x (by omega) (by omega)
      have hgv : chainSeg h ts2t (freedHi h a) h.hi = true := by
        rw [hEn]
        exact hchv3
      have hnadjvs : NoAdjFree h ts2t := hsufadj.tail.tail
      have hvshead : ∀ d ∈ ts2t.head?, block_is_free h d = false := by
        intro d hd
        have hsuf2 := hsufadj.tail
        have hrcd := (List.chain'_cons'.1 hsuf2).1 d hd
        have hfc : block_is_free h c = true := by
          rw [← hrc]
          exact hCR.2
        cases hdf : block_is_free h d with
        | false => rfl
        | true => exact absurd ⟨hfc, hdf⟩ hrcd
      obtain ⟨L1, L2, L3, L4, L5, L6, L7, L8, L9, L10, L11, L12⟩ :=
        left_phase hchu0 hgv hmirror_pair hhz1 hnadjus hnadjvs hvshead hfree
          (by omega) (by omega) hA2 hA3 hEa hframe_g hA5 hA6 hA7 hA8
          (by omega) hspan
      have hts : tsAfterFree h ts1 a (c :: ts2t) =
          (if h.lo ≤ left h a ∧ block_is_free h (left h a) = true
            then ts1 ++ ts2t else ts1 ++ a :: ts2t) := by
        unfold tsAfterFree
        dsimp only
        rw [if_pos hCR]
        simp only [List.tail_cons]
      rw [hts]
      refine ⟨L1, L2, L3, L4, L5, L6, L7, L8, L9, L10, ?_, ?_⟩
      · intro _
        constructor
        · intro hEq
          by_cases hCLh : h.lo ≤ left h a ∧ block_is_free h (left h a) = true
          · exact (L11 hCLh).1 hEq
          · have hg1 := L12 hCLh
            have hg2 : (coalesce_right h a).prevAlloc = a := hA9 (by omega)
            have hFLo : freedLo h a = a := by
              unfold freedLo
              rw [if_neg hCLh]
            rw [hg1, hg2, hFLo]
        · intro hNe
          by_cases hCLh : h.lo ≤ left h a ∧ block_is_free h (left h a) = true
          · rw [(L11 hCLh).2 hNe]
            exact hA10 (by omega)
          · rw [L12 hCLh]
            exact hA10 (by omega)
      · intro hcon
        exact absurd (Or.inr hCR) hcon
  · have hskip : coalesce_right h a = h := coalesce_right_skip hCR
    have hE : freedHi h a = right h a := by
      unfold freedHi
      rw [if_neg hCR]
    have hgv : chainSeg h ts2 (freedHi h a) h.hi = true := by
      rw [hE, hra]
      exact hchv2
    have hnadjvs : NoAdjFree h ts2 := hsufadj.tail
    have hvshead : ∀ d ∈ ts2.head?, block_is_free h d = false := by
      intro d hd
      cases ts2 with
      | nil => simp at hd
      | cons c ts2t =>
        have hd' : c = d := by simpa using hd
        subst hd'
        have hchv2' := hchv2
        unfold chainSeg at hchv2'
        simp only [Bool.and_eq_true] at hchv2'
        obtain ⟨⟨⟨hcpos, hble_c⟩, hmod_c⟩, hchv3⟩ := hchv2'
        have hcpos' : c = a + block_size h a := by simpa using hcpos
        have h24c : 24 ≤ block_size h c := by simpa using hble_c
        have hchi_c : a + block_size h a + block_size h c ≤ h.hi :=
          chainSeg_le hchv3
        cases hdf : block_is_free h c with
        | false => rfl
        | true =>
          exfalso
          apply hCR
          constructor
          · rw [hra]
            omega
          · rw [hra, ← hcpos']
            exact hdf
    have hbs24g : 24 ≤ block_size (coalesce_right h a) a := by
      rw [hskip]
      exact h24a
    have hbs8g : block_size (coalesce_right h a) a % 8 = 0 := by
      rw [hskip]
      exact h8a
    have hfa_g : block_is_free (coalesce_right h a) a = false := by
      rw [hskip]
      exact hfree
    have hprev_g : prevSizeField (coalesce_right h a) a = prevSizeField h a := by
      rw [hskip]
    have hEa_g : a + block_size (coalesce_right h a) a = freedHi h a := by
      rw [hskip, hE, hra]
    have hframe_g : ∀ x, x < a ∨ freedHi h a + 4 ≤ x →
        (coalesce_right h a).mem x = h.mem x := by
      intro x _
      rw [hskip]
    have hglo_g : (coalesce_right h a).lo = h.lo := by rw [hskip]
    have hghi_g : (coalesce_right h a).hi = h.hi := by rw [hskip]
    have hgbrk_g : (coalesce_right h a).brk = h.brk := by rw [hskip]
    have hgcap_g : (coalesce_right h a).cap = h.cap := by rw [hskip]
    have hEhi_g : freedHi h a ≤ h.hi := by
      rw [hE, hra]
      exact hhi_a
    obtain ⟨L1, L2, L3, L4, L5, L6, L7, L8, L9, L10, L11, L12⟩ :=
      left_phase hchu0 hgv hmirror_pair hhz1 hnadjus hnadjvs hvshead hfree
        hbs24g hbs8g hfa_g hprev_g hEa_g hframe_g
        hglo_g hghi_g hgbrk_g hgcap_g hEhi_g hspan
    have hts : tsAfterFree h ts1 a ts2 =
        (if h.lo ≤ left h a ∧ block_is_free h (left h a) = true
          then ts1 ++ ts2 else ts1 ++ a :: ts2) := by
      unfold tsAfterFree
      dsimp only
      rw [if_neg hCR]
    rw [hts]
    refine ⟨L1, L2, L3, L4, L5, L6, L7, L8, L9, L10, ?_, ?_⟩
    · intro hor
      have hCLh := hor.resolve_right hCR
      constructor
      · intro hEq
        exact (L11 hCLh).1 hEq
      · intro hNe
        rw [(L11 hCLh).2 hNe, hskip]
    · intro hcon
      have hnCLh : ¬ (h.lo ≤ left h a ∧ block_is_free h (left h a) = true) :=
        fun hc => hcon (Or.inl hc)
      rw [L12 hnCLh, hskip]

theorem chainSeg_adjacent (h : Heap) (L : List Nat) :
    ∀ (s e x : Nat), chainSeg h L s e = true → x ∈ L →
      x + block_size h x < e →
      ∃ L1 L2, L = L1 ++ x :: (x + block_size h x) :: L2 := by
  induction L with
  | nil =>
    intro s e x _ hx _
    exact absurd hx (List.not_mem_nil x)
  | cons b rest ih =>
    intro s e x hch hx hlt
    unfold chainSeg at hch
    simp only [Bool.and_eq_true] at hch
    obtain ⟨⟨⟨hbs, _⟩, _⟩, hrest⟩ := hch
    have hbs' : b = s := by simpa using hbs
    rw [← hbs'] at hrest
    rcases List.mem_cons.1 hx with hxb | hxr
    · subst hxb
      cases rest with
      | nil =>
        exfalso
        unfold chainSeg at hrest
        have he : x + block_size h x = e := by simpa using hrest
        omega
      | cons c rest2 =>
        unfold chainSeg at hrest
        simp only [Bool.and_eq_true] at hrest
        obtain ⟨⟨⟨hcs, _⟩, _⟩, _⟩ := hrest
        have hcs' : c = x + block_size h x := by simpa using hcs
        exact ⟨[], rest2, by rw [hcs']; simp⟩
    · obtain ⟨L1, L2, hL⟩ := ih (b + block_size h b) e x hrest hxr hlt
      exact ⟨b :: L1, L2, by rw [hL]; simp⟩

/-- C3: after `my_free` returns on a well-formed heap (the blocks `ts1 ++ a ::
ts2` tile `[heap_lo, heap_hi)` with mirrored `prev_size` fields, a zero head
`prev_size`, no two adjacent free blocks, and `a` allocated), the surviving
blocks `tsAfterFree` again tile `[heap_lo, heap_hi)` and, pointwise, every free
block whose right neighbor lies inside the heap has an allocated right
neighbor: coalescing leaves no two adjacent free blocks. -/
theorem c3_no_adjacent_free (h : Heap) (ts1 ts2 : List Nat) (a : Nat)
    (hch : chainSeg h (ts1 ++ a :: ts2) h.lo h.hi = true)
    (hmir : MirrorOk h (ts1 ++ a :: ts2))
    (hnadj : NoAdjFree h (ts1 ++ a :: ts2))
    (hhz : HeadZero h (ts1 ++ a :: ts2))
    (hfree : block_is_free h a = false)
    (hspan : h.hi < h.lo + 2 ^ 28) :
    chainSeg (my_free h (a + HEADER_SIZE)) (tsAfterFree h ts1 a ts2)
        h.lo h.hi = true ∧
    ∀ x ∈ tsAfterFree h ts1 a ts2,
      block_is_free (my_free h (a + HEADER_SIZE)) x = true →
      right (my_free h (a + HEADER_SIZE)) x < h.hi →
      block_is_free (my_free h (a + HEADER_SIZE))
        (right (my_free h (a + HEADER_SIZE)) x) = false := by
  have hmf : my_free h (a + HEADER_SIZE) = coalesce h a := by
    unfold my_free
    rw [if_neg (show ¬(a + HEADER_SIZE = 0) by unfold HEADER_SIZE; omega)]
    congr 1
  obtain ⟨M1, M2, _, M4, _, _, _, _, _, _, _, _⟩ :=
    coalesce_spec h ts1 ts2 a hch hmir hnadj hhz hfree hspan
  rw [hmf]
  refine ⟨M1, ?_⟩
  intro x hx hxfree hxr
  have hxr' : x + block_size (coalesce h a) x < h.hi := hxr
  obtain ⟨L1, L2, hL⟩ :=
    chainSeg_adjacent (coalesce h a) (tsAfterFree h ts1 a ts2)
      h.lo h.hi x M1 hx hxr'
  rw [hL] at M2
  have hsuf := List.Chain'.right_of_append M2
  have hpair := (List.chain'_cons.1 hsuf).1
  cases hb : block_is_free (coalesce h a)
      (right (coalesce h a) x) with
  | false => rfl
  | true => exact absurd ⟨hxfree, hb⟩ hpair

theorem c3_no_adjacent_free_witness :
    chainSeg hC3 ([] ++ 64 :: [88]) hC3.lo hC3.hi = true ∧
    block_is_free hC3 64 = false ∧
    (chainSeg (my_free hC3 (64 + HEADER_SIZE)) (tsAfterFree hC3 [] 64 [88])
        hC3.lo hC3.hi = true ∧
      ∀ x ∈ tsAfterFree hC3 [] 64 [88],
        block_is_free (my_free hC3 (64 + HEADER_SIZE)) x = true →
        right (my_free hC3 (64 + HEADER_SIZE)) x < hC3.hi →
        block_is_free (my_free hC3 (64 + HEADER_SIZE))
          (right (my_free hC3 (64 + HEADER_SIZE)) x) = false) :=
  ⟨by decide, by decide,
    c3_no_adjacent_free hC3 [] [88] 64 (by decide)
      (by
        unfold MirrorOk
        exact List.chain'_cons.2 ⟨by decide, List.chain'_singleton _⟩)
      (by
        unfold NoAdjFree
        exact List.chain'_cons.2 ⟨by decide, List.chain'_singleton _⟩)
      (by
        intro b hb
        have hb' : (64 : Nat) = b := by simpa using hb
        subst hb'
        decide)
      (by decide) (by decide)⟩

theorem chainSeg_disjoint (h : Heap) (L : List Nat) :
    ∀ (s e x y : Nat), chainSeg h L s e = true → x ∈ L → y ∈ L →
      x = y ∨ x + block_size h x ≤ y ∨ y + block_size h y ≤ x := by
  induction L with
  | nil =>
    intro s e x y _ hx _
    exact absurd hx (List.not_mem_nil x)
  | cons b rest ih =>
    intro s e x y hch hx hy
    unfold chainSeg at hch
    simp only [Bool.and_eq_true] at hch
    obtain ⟨⟨⟨hbs, _⟩, _⟩, hrest⟩ := hch
    have hbs' : b = s := by simpa using hbs
    rw [← hbs'] at hrest
    rcases List.mem_cons.1 hx with hxb | hxr
    · rcases List.mem_cons.1 hy with hyb | hyr
      · left
        rw [hxb, hyb]
      · right
        left
        have hb := (chainSeg_bounds hrest y hyr).1
        rw [hxb]
        exact hb
    · rcases List.mem_cons.1 hy with hyb | hyr
      · right
        right
        have hb := (chainSeg_bounds hrest x hxr).1
        rw [hyb]
        exact hb
      · exact ih (b + block_size h b) e x y hrest hxr hyr

/-- C5 (amended): on a well-formed heap whose cached frontier pointer
`prev_alloc` designates a block of the tiling with right edge `heap_hi`,
`my_free` (release) re-establishes the invariant: the heap bounds are
unchanged and `right(prev_alloc) == heap_hi` again holds afterwards —
in particular a coalesce that absorbs the frontier block repoints
`prev_alloc` at the merged block.  (The unqualified original claim is false:
the failed-`mem_sbrk` frontier path of `my_malloc` breaks the invariant, see
the counterexample.) -/
theorem c5_frontier_invariant (h : Heap) (ts1 ts2 : List Nat) (a : Nat)
    (hch : chainSeg h (ts1 ++ a :: ts2) h.lo h.hi = true)
    (hmir : MirrorOk h (ts1 ++ a :: ts2))
    (hnadj : NoAdjFree h (ts1 ++ a :: ts2))
    (hhz : HeadZero h (ts1 ++ a :: ts2))
    (hfree : block_is_free h a = false)
    (hspan : h.hi < h.lo + 2 ^ 28)
    (hpam : h.prevAlloc ∈ ts1 ++ a :: ts2)
    (hpa : right h h.prevAlloc = h.hi) :
    (my_free h (a + HEADER_SIZE)).hi = h.hi ∧
    right (my_free h (a + HEADER_SIZE)) (my_free h (a + HEADER_SIZE)).prevAlloc
      = h.hi := by
  have hmf : my_free h (a + HEADER_SIZE) = coalesce h a := by
    unfold my_free
    rw [if_neg (show ¬(a + HEADER_SIZE = 0) by unfold HEADER_SIZE; omega)]
    congr 1
  obtain ⟨M1, M2, M3, M4, M5, M6, M7, M8, M9, M10, M11, M12⟩ :=
    coalesce_spec h ts1 ts2 a hch hmir hnadj hhz hfree hspan
  rw [hmf]
  refine ⟨M4, ?_⟩
  have hamem : a ∈ ts1 ++ a :: ts2 := List.mem_append.2 (Or.inr (by simp))
  obtain ⟨_, habnd, h24a', _⟩ := chainSeg_bounds hch a hamem
  obtain ⟨_, hpabnd, h24pa, _⟩ := chainSeg_bounds hch h.prevAlloc hpam
  have hpa' : h.prevAlloc + block_size h h.prevAlloc = h.hi := hpa
  -- locate a tiling member whose right edge is the freed region's right edge
  have hm : ∃ m ∈ ts1 ++ a :: ts2, m + block_size h m = freedHi h a := by
    by_cases hCR : right h a < h.hi ∧ block_is_free h (right h a) = true
    · obtain ⟨q, hchu, hchv⟩ := chainSeg_append_elim hch
      have hchv' := hchv
      unfold chainSeg at hchv'
      simp only [Bool.and_eq_true] at hchv'
      obtain ⟨⟨⟨haq, _⟩, _⟩, hchv2⟩ := hchv'
      have haq' : a = q := by simpa using haq
      subst haq'
      cases ts2 with
      | nil =>
        exfalso
        unfold chainSeg at hchv2
        have he : a + block_size h a = h.hi := by simpa using hchv2
        have h1 := hCR.1
        unfold right at h1
        omega
      | cons c ts2t =>
        have hchv2' := hchv2
        unfold chainSeg at hchv2'
        simp only [Bool.and_eq_true] at hchv2'
        obtain ⟨⟨⟨hcs, _⟩, _⟩, _⟩ := hchv2'
        have hcs' : c = a + block_size h a := by simpa using hcs
        refine ⟨c, List.mem_append.2 (Or.inr (by simp)), ?_⟩
        unfold freedHi
        rw [if_pos hCR]
        have hrc : right h a = c := by
          unfold right
          omega
        rw [hrc]
    · refine ⟨a, hamem, ?_⟩
      unfold freedHi
      rw [if_neg hCR]
      rfl
  obtain ⟨m, hmL, hmE⟩ := hm
  obtain ⟨_, hmbnd, h24m, _⟩ := chainSeg_bounds hch m hmL
  by_cases hEq : freedHi h a = h.hi
  · -- the freed (merged) block becomes the frontier block
    have hpaL : (coalesce h a).prevAlloc = freedLo h a := by
      by_cases hInd : (h.lo ≤ left h a ∧ block_is_free h (left h a) = true) ∨
          (right h a < h.hi ∧ block_is_free h (right h a) = true)
      · exact (M11 hInd).1 hEq
      · -- no merge: the freed block is `a` itself and it is the old frontier
        rw [M12 hInd]
        have hnCR : ¬ (right h a < h.hi ∧ block_is_free h (right h a) = true) :=
          fun hc => hInd (Or.inr hc)
        have hnCL : ¬ (h.lo ≤ left h a ∧ block_is_free h (left h a) = true) :=
          fun hc => hInd (Or.inl hc)
        have hFHi : freedHi h a = right h a := by
          unfold freedHi
          rw [if_neg hnCR]
        have hFLo : freedLo h a = a := by
          unfold freedLo
          rw [if_neg hnCL]
        have hae : a + block_size h a = h.hi := by
          rw [← hEq, hFHi]
          rfl
        rcases chainSeg_disjoint h (ts1 ++ a :: ts2) h.lo h.hi h.prevAlloc a
            hch hpam hamem with heq | hle | hle
        · rw [hFLo, ← heq]
        · omega
        · omega
    rw [hpaL]
    unfold right
    rw [M8]
    exact hEq
  · -- the frontier block is untouched: `prev_alloc` and its size survive
    have hpaU : (coalesce h a).prevAlloc = h.prevAlloc := by
      by_cases hInd : (h.lo ≤ left h a ∧ block_is_free h (left h a) = true) ∨
          (right h a < h.hi ∧ block_is_free h (right h a) = true)
      · exact (M11 hInd).2 hEq
      · exact M12 hInd
    have hge : freedHi h a ≤ h.prevAlloc := by
      rcases chainSeg_disjoint h (ts1 ++ a :: ts2) h.lo h.hi m h.prevAlloc
          hch hmL hpam with heq | hle | hle
      · exfalso
        rw [heq] at hmE
        omega
      · omega
      · omega
    have hsf : sizeField (coalesce h a) h.prevAlloc =
        sizeField h h.prevAlloc := by
      unfold sizeField
      exact load32_eq_of_bytes
        (M7 (h.prevAlloc + 4) (Or.inr (by omega)))
        (M7 (h.prevAlloc + 4 + 1) (Or.inr (by omega)))
        (M7 (h.prevAlloc + 4 + 2) (Or.inr (by omega)))
        (M7 (h.prevAlloc + 4 + 3) (Or.inr (by omega)))
    have hbs : block_size (coalesce h a) h.prevAlloc =
        block_size h h.prevAlloc := by
      unfold block_size
      rw [hsf]
    rw [hpaU]
    unfold right
    rw [hbs]
    exact hpa'

/-- C5 counterexample: the original unqualified claim ("every operation
re-establishes `right(prev_alloc) == heap_hi`") fails on a reachable state.
On `hC2` (one free 24-byte frontier block, region exhausted) the invariant
holds, but after the public call `my_malloc hC2 100` — whose frontier path
ignores the `mem_sbrk` failure — it is broken. -/
theorem c5_frontier_invariant_counterexample :
    right hC2 hC2.prevAlloc = hC2.hi ∧
    right (my_malloc hC2 100).2 (my_malloc hC2 100).2.prevAlloc ≠
      (my_malloc hC2 100).2.hi := by
  refine ⟨by decide, by decide⟩

theorem c5_frontier_invariant_witness :
    chainSeg hC3 ([] ++ 64 :: [88]) hC3.lo hC3.hi = true ∧
    right hC3 hC3.prevAlloc = hC3.hi ∧
    ((my_free hC3 (64 + HEADER_SIZE)).hi = hC3.hi ∧
      right (my_free hC3 (64 + HEADER_SIZE))
        (my_free hC3 (64 + HEADER_SIZE)).prevAlloc = hC3.hi) :=
  ⟨by decide, by decide,
    c5_frontier_invariant hC3 [] [88] 64 (by decide)
      (by
        unfold MirrorOk
        exact List.chain'_cons.2 ⟨by decide, List.chain'_singleton _⟩)
      (by
        unfold NoAdjFree
        exact List.chain'_cons.2 ⟨by decide, List.chain'_singleton _⟩)
      (by
        intro b hb
        have hb' : (64 : Nat) = b := by simpa using hb
        subst hb'
        decide)
      (by decide) (by decide) (by decide) (by decide)⟩

theorem ALIGN_mod8 (s : Nat) : ALIGN s % 8 = 0 := by
  unfold ALIGN
  omega

theorem ALIGN_bounds {s : Nat} (hs : s + 7 < U64) :
    s ≤ ALIGN s ∧ ALIGN s ≤ s + 7 := by
  unfold ALIGN U64 at *
  omega

theorem block_set_size_mem_lo {g : Heap} {c v : Nat} (x : Nat) (hx : x < c) :
    (block_set_size g c v).mem x = g.mem x := by
  unfold block_set_size
  dsimp only
  split
  · dsimp only
    rw [store32_apply_out (Or.inl (show x < right _ c by unfold right; omega)),
      store32_apply_out (Or.inl (by omega))]
  · dsimp only
    rw [store32_apply_out (Or.inl (by omega))]

theorem block_set_free_mem_lo {g : Heap} {c f : Nat} (x : Nat) (hx : x < c) :
    (block_set_free g c f).mem x = g.mem x := by
  unfold block_set_free
  dsimp only
  split
  · dsimp only
    rw [store32_apply_out (Or.inl (show x < right _ c by unfold right; omega)),
      store32_apply_out (Or.inl (by omega))]
  · dsimp only
    rw [store32_apply_out (Or.inl (by omega))]

theorem binsGet_replicate {h : Heap}
    (hb : h.bins = List.replicate NUM_BINS ([] : List Nat)) (i : Nat) :
    binsGet h i = [] := by
  unfold binsGet
  rw [hb]
  unfold List.getD
  rw [List.get?_eq_getElem?]
  rcases Nat.lt_or_ge i NUM_BINS with hlt | hge
  · rw [List.getElem?_eq_getElem (by simpa using hlt)]
    simp
  · rw [List.getElem?_eq_none (by simpa using hge)]
    rfl

theorem tryBins_empty {h : Heap} {size : Nat}
    (hb : h.bins = List.replicate NUM_BINS ([] : List Nat)) :
    ∀ fuel bin, tryBins h size bin fuel = (none, h) := by
  intro fuel
  induction fuel with
  | zero =>
    intro bin
    rfl
  | succ f ih =>
    intro bin
    unfold tryBins
    by_cases hbin : bin < NUM_BINS
    · rw [if_pos hbin]
      have hp : pull h size bin = (none, h) := by
        unfold pull
        rw [binsGet_replicate hb]
        rfl
      rw [hp]
      exact ih (bin + 1)
    · rw [if_neg hbin]

theorem chainSeg_last (h : Heap) (L : List Nat) :
    ∀ (s e : Nat), chainSeg h L s e = true →
      ∀ x ∈ L.getLast?, x + block_size h x = e := by
  induction L with
  | nil =>
    intro s e _ x hx
    simp at hx
  | cons b rest ih =>
    intro s e hch x hx
    unfold chainSeg at hch
    simp only [Bool.and_eq_true] at hch
    obtain ⟨⟨⟨hbs, _⟩, _⟩, hrest⟩ := hch
    have hbs' : b = s := by simpa using hbs
    rw [← hbs'] at hrest
    cases rest with
    | nil =>
      have hxb : b = x := by simpa using hx
      subst hxb
      unfold chainSeg at hrest
      have he : b + block_size h b = e := by simpa using hrest
      exact he
    | cons c rest2 =>
      have hx' : x ∈ (c :: rest2).getLast? := by
        simpa [List.getLast?_cons_cons] using hx
      exact ih (b + block_size h b) e hrest x hx'

theorem block_size_even (h : Heap) (b : Nat) : block_size h b % 2 = 0 := by
  unfold block_size
  omega

theorem shrink_mem_frame {h : Heap} {b s : Nat}
    (hfree : block_is_free h b = false)
    (hsev : s % 2 = 0) (h8s : 8 ≤ s)
    (hsle : s ≤ block_size h b)
    (h28 : block_size h b < 2 ^ 28)
    (hbnd : b + block_size h b ≤ h.hi)
    (hr28 : b + block_size h b < h.hi →
      block_size h (b + block_size h b) < 2 ^ 28) :
    ∀ x, b + 8 ≤ x → x < b + s → (shrink h b s).mem x = h.mem x := by
  intro x hx1 hx2
  have hbslt : block_size h b < U32 := block_size_lt
  have hs32 : s < U32 := by
    unfold U32 at hbslt ⊢
    omega
  have htm : s % U32 = s := by
    unfold U32 at hs32 ⊢
    omega
  have hsn : (block_size h b + (U32 - s % U32)) % U32 = block_size h b - s := by
    rw [htm]
    unfold U32 at hbslt ⊢
    omega
  unfold shrink
  dsimp only
  rw [hsn]
  by_cases hrem : ALIGN SHRINK_MIN_SIZE ≤ block_size h b - s
  case neg =>
    rw [if_neg hrem]
  rw [if_pos hrem]
  have halign : ALIGN SHRINK_MIN_SIZE = 24 := by decide
  rw [halign] at hrem
  have hfe : sizeField h b % 2 = 0 := by
    unfold block_is_free at hfree
    rcases Nat.mod_two_eq_zero_or_one (sizeField h b) with h0 | h1
    · exact h0
    · rw [h1] at hfree
      simp at hfree
  have hlt_at : b + s < h.hi := by omega
  have hr1 : right (block_set_size h b s) b = b + s :=
    right_set_size_self hsev hs32 h8s
  rw [hr1]
  set H1 := block_set_size h b s with hH1
  have hmem1 : H1.mem = store32 (store32 h.mem (b + 4) s) (b + s) s := by
    rw [hH1]
    have hml := block_set_size_mem_lt hsev hs32 hlt_at
    rw [hfe] at hml
    simp only [Nat.zero_add] at hml
    exact hml
  have hsf1a : sizeField H1 b = s := by
    rw [hH1, sizeField_set_size_self hsev hs32 h8s, hfe]
    omega
  have hprev1 : prevSizeField H1 (b + s) = s := by
    unfold prevSizeField
    rw [hmem1, load32_store32_self, htm]
  have hsf1r : sizeField H1 (b + block_size h b) =
      sizeField h (b + block_size h b) := by
    have hdef : sizeField H1 (b + block_size h b) =
        load32 H1.mem (b + block_size h b + 4) := rfl
    rw [hdef, hmem1, load32_store32_disj (Or.inr (by omega)),
      load32_store32_disj (Or.inr (by omega))]
    rfl
  have hrem2 : (block_size h b - s) % 2 = 0 := by
    have := block_size_even h b
    omega
  have hrem32 : block_size h b - s < U32 := by
    unfold U32 at hbslt ⊢
    omega
  have h8rem : 8 ≤ block_size h b - s := by omega
  set H2 := block_set_size H1 (b + s) (block_size h b - s) with hH2
  have hmem2x : H2.mem x = H1.mem x := by
    rw [hH2]
    exact block_set_size_mem_lo x (by omega)
  have hsf2a : sizeField H2 b = s := by
    have hdef : sizeField H2 b = load32 H2.mem (b + 4) := rfl
    rw [hdef, hH2, load32_set_size_other hrem2 hrem32 (Or.inl (by omega))
      (Or.inl (by omega))]
    exact hsf1a
  have hprev2 : prevSizeField H2 (b + s) = s := by
    have hdef : prevSizeField H2 (b + s) = load32 H2.mem (b + s) := rfl
    rw [hdef, hH2, load32_set_size_other hrem2 hrem32 (Or.inl (by omega))
      (Or.inl (by omega))]
    exact hprev1
  have hbs2 : block_size H2 (b + s) = block_size h b - s := by
    rw [hH2]
    exact block_size_set_size_self hrem2 hrem32 h8rem
  have hsf2r : sizeField H2 (b + block_size h b) =
      sizeField h (b + block_size h b) := by
    have hdef : sizeField H2 (b + block_size h b) =
        load32 H2.mem (b + block_size h b + 4) := rfl
    rw [hdef, hH2, load32_set_size_other hrem2 hrem32 (Or.inr (by omega))
      (Or.inr (by omega))]
    exact hsf1r
  set H3 := block_update_last H2 (b + s) with hH3
  have hm3 : H3.mem = H2.mem := block_update_last_mem _ _
  have hhi3 : H3.hi = h.hi := by
    rw [hH3, hH2, hH1]
    simp
  have hbs3 : block_size H3 (b + s) = block_size h b - s := by
    rw [bsize_of_sizeField (sizeField_congr_mem hm3 (b + s))]
    exact hbs2
  have hprev3 : prevSizeField H3 (b + s) = s := by
    rw [prevSizeField_congr_mem hm3 (b + s)]
    exact hprev2
  have hsf3a : sizeField H3 b = s := by
    rw [sizeField_congr_mem hm3 b]
    exact hsf2a
  have hsf3r : sizeField H3 (b + block_size h b) =
      sizeField h (b + block_size h b) := by
    rw [sizeField_congr_mem hm3 (b + block_size h b)]
    exact hsf2r
  have hmem3x : H3.mem x = h.mem x := by
    rw [hm3, hmem2x, hmem1, store32_apply_out (Or.inl (by omega)),
      store32_apply_out (Or.inr (by omega))]
  have hrH3 : right H3 (b + s) = b + block_size h b := by
    unfold right
    rw [hbs3]
    omega
  rw [coalesce_eq]
  set g := coalesce_right H3 (b + s) with hg
  have hgfacts : g.mem x = H3.mem x ∧ prevSizeField g (b + s) = s ∧
      sizeField g b = s := by
    by_cases hCR : right H3 (b + s) < H3.hi ∧
        block_is_free H3 (right H3 (b + s)) = true
    · have hrlt : b + block_size h b < h.hi := by
        have h1 := hCR.1
        rw [hrH3, hhi3] at h1
        exact h1
      have hbsr3 : block_size H3 (b + block_size h b) =
          block_size h (b + block_size h b) :=
        bsize_of_sizeField hsf3r
      have hbsr28 : block_size H3 (right H3 (b + s)) < 2 ^ 28 := by
        rw [hrH3, hbsr3]
        exact hr28 hrlt
      have hv : block_size (extract H3 (right H3 (b + s))) (b + s) +
          block_size (extract H3 (right H3 (b + s))) (right H3 (b + s)) <
            U32 := by
        have he1 : block_size (extract H3 (right H3 (b + s))) (b + s) =
            block_size H3 (b + s) :=
          bsize_of_sizeField (sizeField_congr_mem (extract_mem _ _) _)
        have he2 : block_size (extract H3 (right H3 (b + s)))
            (right H3 (b + s)) = block_size H3 (right H3 (b + s)) :=
          bsize_of_sizeField (sizeField_congr_mem (extract_mem _ _) _)
        rw [he1, he2, hbs3]
        unfold U32
        omega
      have hvev : (block_size (extract H3 (right H3 (b + s))) (b + s) +
          block_size (extract H3 (right H3 (b + s))) (right H3 (b + s))) %
            2 = 0 := by
        have := block_size_even (extract H3 (right H3 (b + s))) (b + s)
        have := block_size_even (extract H3 (right H3 (b + s)))
          (right H3 (b + s))
        omega
      have hv24 : 24 ≤ block_size (extract H3 (right H3 (b + s))) (b + s) +
          block_size (extract H3 (right H3 (b + s))) (right H3 (b + s)) := by
        have he1 : block_size (extract H3 (right H3 (b + s))) (b + s) =
            block_size H3 (b + s) :=
          bsize_of_sizeField (sizeField_congr_mem (extract_mem _ _) _)
        rw [he1, hbs3]
        omega
      have hgeq : g = block_update_last
          (block_set_size (extract H3 (right H3 (b + s))) (b + s)
            (block_size (extract H3 (right H3 (b + s))) (b + s) +
              block_size (extract H3 (right H3 (b + s)))
                (right H3 (b + s)))) (b + s) := by
        rw [hg]
        unfold coalesce_right
        dsimp only
        rw [if_pos hCR]
      refine ⟨?_, ?_, ?_⟩
      · rw [hgeq, block_update_last_mem,
          block_set_size_mem_lo x (by omega), extract_mem]
      · rw [hgeq, prevSizeField_congr_mem (block_update_last_mem _ _) _]
        have hdef : prevSizeField (block_set_size
            (extract H3 (right H3 (b + s))) (b + s) _) (b + s) =
            load32 (block_set_size (extract H3 (right H3 (b + s))) (b + s)
              (block_size (extract H3 (right H3 (b + s))) (b + s) +
                block_size (extract H3 (right H3 (b + s)))
                  (right H3 (b + s)))).mem (b + s) := rfl
        rw [hdef, load32_set_size_other hvev hv (Or.inl (by omega))
          (Or.inl (by omega))]
        have : load32 (extract H3 (right H3 (b + s))).mem (b + s) =
            prevSizeField H3 (b + s) := by
          rw [extract_mem]
          rfl
        rw [this, hprev3]
      · rw [hgeq, sizeField_congr_mem (block_update_last_mem _ _) _]
        have hdef : sizeField (block_set_size
            (extract H3 (right H3 (b + s))) (b + s) _) b =
            load32 (block_set_size (extract H3 (right H3 (b + s))) (b + s)
              (block_size (extract H3 (right H3 (b + s))) (b + s) +
                block_size (extract H3 (right H3 (b + s)))
                  (right H3 (b + s)))).mem (b + 4) := rfl
        rw [hdef, load32_set_size_other hvev hv (Or.inl (by omega))
          (Or.inl (by omega))]
        have : load32 (extract H3 (right H3 (b + s))).mem (b + 4) =
            sizeField H3 b := by
          rw [extract_mem]
          rfl
        rw [this, hsf3a]
    · have hgskip : g = H3 := by
        rw [hg]
        exact coalesce_right_skip hCR
      rw [hgskip]
      exact ⟨rfl, hprev3, hsf3a⟩
  obtain ⟨hgx, hgprev, hgsf⟩ := hgfacts
  have hlg : left g (b + s) = b := by
    unfold left block_prev_size
    rw [hgprev]
    omega
  have hfg : block_is_free g b = false := by
    unfold block_is_free
    rw [hgsf]
    simp
    omega
  have hCL : ¬ (g.lo ≤ left g (b + s) ∧
      block_is_free g (left g (b + s)) = true) := by
    rw [hlg, hfg]
    simp
  rw [coalesce_left_skip hCL]
  have hpm : (push g (b + s)).mem = (block_set_free g (b + s) 1).mem :=
    push_mem _ _
  rw [hpm, block_set_free_mem_lo x (by omega), hgx, hmem3x]

theorem my_malloc_append_fail {h : Heap} {sn : Nat}
    (hcap : ¬ h.brk + sn ≤ h.cap) :
    my_malloc_append h sn = (none, h) := by
  unfold my_malloc_append mem_sbrk
  dsimp only
  rw [if_neg hcap]
  dsimp only
  rw [if_pos rfl]

theorem my_malloc_append_success {h : Heap} {sn : Nat}
    (hsn1 : 1 ≤ sn)
    (hcap : h.brk + sn ≤ h.cap)
    (hcapU : h.cap < U64)
    (hpane : h.prevAlloc ≠ PREV_ALLOC_INIT)
    (hpa4 : h.prevAlloc + 8 ≤ h.brk) :
    my_malloc_append h sn = (some (h.brk + HEADER_SIZE),
      { mem := store32 (store32 h.mem (h.brk + 4) sn) h.brk
          (sizeField h h.prevAlloc),
        lo := h.lo, hi := h.brk + sn, brk := h.brk + sn, cap := h.cap,
        bins := h.bins, prevAlloc := h.brk }) := by
  have hbrkne : h.brk ≠ U64 - 1 := by
    unfold U64 at hcapU ⊢
    omega
  have hmod : (h.brk + sn) % U64 = h.brk + sn := by
    unfold U64 at hcapU ⊢
    omega
  unfold my_malloc_append mem_sbrk
  dsimp only
  rw [if_pos hcap]
  dsimp only
  rw [if_neg hbrkne, hmod]
  unfold block_init
  dsimp only
  rw [if_neg hpane]
  apply congrArg (Prod.mk (some (h.brk + HEADER_SIZE)))
  apply heap_ext
  · dsimp only
    rw [load32_store32_disj (Or.inl (by omega))]
    rfl
  · rfl
  · rfl
  · rfl
  · rfl
  · rfl
  · rfl

theorem mem_sbrk_mem (h : Heap) (d : Nat) : (mem_sbrk h d).2.mem = h.mem := by
  unfold mem_sbrk
  split <;> rfl

theorem block_set_size_mem_payload {g : Heap} {c v : Nat} (hev : v % 2 = 0)
    (hv32 : v < U32) (x : Nat) (hx1 : c + 8 ≤ x) (hx2 : x < c + v) :
    (block_set_size g c v).mem x = g.mem x := by
  by_cases hlt : c + v < g.hi
  · rw [block_set_size_mem_lt hev hv32 hlt, store32_apply_out (Or.inl hx2),
      store32_apply_out (Or.inr (by omega))]
  · rw [block_set_size_mem_ge hev hv32 hlt,
      store32_apply_out (Or.inr (by omega))]

theorem my_malloc_quiescent {h : Heap} {m : Nat}
    (hbins : h.bins = List.replicate NUM_BINS [])
    (hne : h.hi ≠ h.lo)
    (hpaf : block_is_free h h.prevAlloc = false)
    (hm16 : ¬ m < LINKS_SIZE) :
    my_malloc h m = my_malloc_append h (round_up m) := by
  unfold my_malloc
  dsimp only
  rw [if_neg hm16, if_pos hne,
    tryBins_empty hbins NUM_BINS (block_bin (round_up m))]
  dsimp only
  rw [hpaf]
  simp

theorem getLast?_mem_list {α : Type} :
    ∀ {l : List α} {a : α}, a ∈ l.getLast? → a ∈ l := by
  intro l
  induction l with
  | nil =>
    intro a ha
    simp at ha
  | cons x rest ih =>
    intro a ha
    cases rest with
    | nil =>
      have hax : x = a := by simpa using ha
      subst hax
      simp
    | cons y ys =>
      rw [List.getLast?_cons_cons] at ha
      exact List.mem_cons_of_mem x (ih ha)

theorem my_realloc_eq_same {h : Heap} {p m : Nat} (hp : p ≠ 0) (hm : m ≠ 0)
    (he : round_up m % U32 = block_size h (p - HEADER_SIZE)) :
    my_realloc h p m = (some p, h) := by
  unfold my_realloc
  dsimp only
  rw [if_neg hp, if_neg hm, if_pos he]

theorem my_realloc_eq_shrink {h : Heap} {p m : Nat} (hp : p ≠ 0) (hm : m ≠ 0)
    (hne1 : ¬ round_up m % U32 = block_size h (p - HEADER_SIZE))
    (hlt : round_up m % U32 < block_size h (p - HEADER_SIZE)) :
    my_realloc h p m =
      (some p, shrink h (p - HEADER_SIZE) (round_up m % U32)) := by
  unfold my_realloc
  dsimp only
  rw [if_neg hp, if_neg hm, if_neg hne1, if_pos hlt]

theorem my_realloc_eq_frontier {h : Heap} {p m : Nat} (hp : p ≠ 0) (hm : m ≠ 0)
    (hne1 : ¬ round_up m % U32 = block_size h (p - HEADER_SIZE))
    (hne2 : ¬ round_up m % U32 < block_size h (p - HEADER_SIZE))
    (hfr : right h (p - HEADER_SIZE) = h.hi) :
    my_realloc h p m = (some p,
      block_set_size
        { (mem_sbrk h ((round_up m % U32 +
            (U32 - block_size h (p - HEADER_SIZE))) % U32)).2 with
          hi := ((mem_sbrk h ((round_up m % U32 +
              (U32 - block_size h (p - HEADER_SIZE))) % U32)).2.hi +
            (round_up m % U32 +
              (U32 - block_size h (p - HEADER_SIZE))) % U32) % U64 }
        (p - HEADER_SIZE) (round_up m % U32)) := by
  unfold my_realloc
  dsimp only
  rw [if_neg hp, if_neg hm, if_neg hne1, if_neg hne2, if_pos hfr]

theorem my_realloc_eq_move {h : Heap} {p m : Nat} (hp : p ≠ 0) (hm : m ≠ 0)
    (hne1 : ¬ round_up m % U32 = block_size h (p - HEADER_SIZE))
    (hne2 : ¬ round_up m % U32 < block_size h (p - HEADER_SIZE))
    (hfr : ¬ right h (p - HEADER_SIZE) = h.hi)
    {q0 : Nat} {h1 : Heap} (hmal : my_malloc h m = (some q0, h1)) :
    my_realloc h p m = (some q0,
      my_free (heap_memcpy h1 q0 p
        ((block_size h1 (p - HEADER_SIZE) + (U64 - HEADER_SIZE)) % U64)) p) := by
  unfold my_realloc
  dsimp only
  rw [if_neg hp, if_neg hm, if_neg hne1, if_neg hne2, if_neg hfr, hmal]

theorem my_realloc_eq_move_fail {h : Heap} {p m : Nat} (hp : p ≠ 0)
    (hm : m ≠ 0)
    (hne1 : ¬ round_up m % U32 = block_size h (p - HEADER_SIZE))
    (hne2 : ¬ round_up m % U32 < block_size h (p - HEADER_SIZE))
    (hfr : ¬ right h (p - HEADER_SIZE) = h.hi)
    {h1 : Heap} (hmal : my_malloc h m = (none, h1)) :
    my_realloc h p m = (none, h1) := by
  unfold my_realloc
  dsimp only
  rw [if_neg hp, if_neg hm, if_neg hne1, if_neg hne2, if_neg hfr, hmal]

set_option maxRecDepth 2000 in
/-- C7: data preservation across `my_realloc`.  For a well-formed quiescent
heap (blocks tiling `[heap_lo, heap_hi)` with mirrored `prev_size` fields, no
free blocks anywhere — empty bins and an allocated frontier block cached in
`prev_alloc` — and the break at `heap_hi`), a payload `p = b + 8` of an
allocated block `b` holding `n` data bytes, and any request `m`: whenever
`my_realloc(p, m)` returns a payload `q`, the first `min n m` bytes at `q`
equal the original bytes at `p` — across the no-change, in-place shrink,
frontier-extend, and allocate-copy-release paths. -/
theorem c7_realloc_data_preservation (h : Heap) (ts1 ts2 : List Nat)
    (b n m : Nat)
    (hch : chainSeg h (ts1 ++ b :: ts2) h.lo h.hi = true)
    (hmir : MirrorOk h (ts1 ++ b :: ts2))
    (hnadj : NoAdjFree h (ts1 ++ b :: ts2))
    (hhz : HeadZero h (ts1 ++ b :: ts2))
    (hfree_b : block_is_free h b = false)
    (hbins : h.bins = List.replicate NUM_BINS [])
    (hpaf : block_is_free h h.prevAlloc = false)
    (hpam : h.prevAlloc ∈ ts1 ++ b :: ts2)
    (hpafr : right h h.prevAlloc = h.hi)
    (hbrk : h.brk = h.hi)
    (hcapU : h.cap < U64)
    (hcap28 : h.cap < h.lo + 2 ^ 28)
    (hspan : h.hi < h.lo + 2 ^ 28)
    (hmspan : m ≤ h.hi - h.lo)
    (hn : n + HEADER_SIZE ≤ block_size h b) :
    ∀ q, (my_realloc h (b + HEADER_SIZE) m).1 = some q →
      ∀ j, j < n → j < m →
        (my_realloc h (b + HEADER_SIZE) m).2.mem (q + j) =
          h.mem (b + HEADER_SIZE + j) := by
  intro q hq j hjn hjm
  have hH : HEADER_SIZE = 8 := rfl
  rw [hH] at hn
  have hbmem : b ∈ ts1 ++ b :: ts2 := List.mem_append.2 (Or.inr (by simp))
  obtain ⟨hlob, hbbnd, h24b, h8b⟩ := chainSeg_bounds hch b hbmem
  have hbs28 : block_size h b < 2 ^ 28 := by omega
  have hp0 : b + HEADER_SIZE ≠ 0 := by
    rw [hH]
    omega
  by_cases hm0 : m = 0
  · omega
  have hm28 : m < 2 ^ 28 := by omega
  have hbb : b + HEADER_SIZE - HEADER_SIZE = b := rfl
  have hSge : m + 8 ≤ round_up m := by
    unfold round_up HEADER_SIZE
    exact (ALIGN_bounds (by unfold U64; omega)).1
  have hSle : round_up m ≤ m + 15 := by
    unfold round_up HEADER_SIZE
    have := (ALIGN_bounds (s := m + 8) (by unfold U64; omega)).2
    omega
  have hS8 : round_up m % 8 = 0 := ALIGN_mod8 _
  have hS32 : round_up m < U32 := by
    unfold U32
    omega
  have hSmod : round_up m % U32 = round_up m := by
    unfold U32 at hS32 ⊢
    omega
  have hr28 : b + block_size h b < h.hi →
      block_size h (b + block_size h b) < 2 ^ 28 := by
    intro hlt
    obtain ⟨L1, L2, hLsplit⟩ := chainSeg_adjacent h (ts1 ++ b :: ts2)
      h.lo h.hi b hch hbmem hlt
    have hc0 : b + block_size h b ∈ ts1 ++ b :: ts2 := by
      rw [hLsplit]
      simp
    obtain ⟨_, hcb, _, _⟩ := chainSeg_bounds hch (b + block_size h b) hc0
    omega
  by_cases hEq : round_up m % U32 = block_size h (b + HEADER_SIZE - HEADER_SIZE)
  · -- no-change path
    have hres := my_realloc_eq_same hp0 hm0 hEq
    rw [hres] at hq
    have hqq : b + HEADER_SIZE = q := by simpa using hq
    rw [hres, ← hqq]
  by_cases hLt : round_up m % U32 < block_size h (b + HEADER_SIZE - HEADER_SIZE)
  · -- in-place shrink path
    have hres := my_realloc_eq_shrink hp0 hm0 hEq hLt
    rw [hres] at hq
    have hqq : b + HEADER_SIZE = q := by simpa using hq
    rw [hres, ← hqq]
    show (shrink h (b + HEADER_SIZE - HEADER_SIZE) (round_up m % U32)).mem
      (b + HEADER_SIZE + j) = h.mem (b + HEADER_SIZE + j)
    rw [hbb, hSmod]
    rw [hbb, hSmod] at hLt
    exact shrink_mem_frame hfree_b (by omega) (by omega) (Nat.le_of_lt hLt)
      hbs28 hbbnd hr28 (b + HEADER_SIZE + j) (by rw [hH]; omega)
      (by rw [hH]; omega)
  by_cases hFr : right h (b + HEADER_SIZE - HEADER_SIZE) = h.hi
  · -- frontier-extend path
    have hres := my_realloc_eq_frontier hp0 hm0 hEq hLt hFr
    rw [hres] at hq
    have hqq : b + HEADER_SIZE = q := by simpa using hq
    rw [hres, ← hqq]
    dsimp only
    rw [hbb, hSmod]
    rw [block_set_size_mem_payload (by omega) hS32 (b + HEADER_SIZE + j)
      (by rw [hH]; omega) (by rw [hH]; omega)]
    rw [mem_sbrk_mem]
  -- allocate-copy-release (move) path
  have hGt : block_size h b < round_up m := by
    rw [hbb, hSmod] at hEq hLt
    omega
  have hm16 : ¬ m < LINKS_SIZE := by
    intro hlt16
    have hls : LINKS_SIZE = 16 := rfl
    rw [hls] at hlt16
    omega
  have hne : h.hi ≠ h.lo := by omega
  have hmal0 : my_malloc h m = my_malloc_append h (round_up m) :=
    my_malloc_quiescent hbins hne hpaf hm16
  by_cases hcap : h.brk + round_up m ≤ h.cap
  case neg =>
    have hmal : my_malloc h m = (none, h) := by
      rw [hmal0, my_malloc_append_fail hcap]
    have hres := my_realloc_eq_move_fail hp0 hm0 hEq hLt hFr hmal
    rw [hres] at hq
    simp at hq
  have hcap' : h.hi + round_up m ≤ h.cap := by
    rw [← hbrk]
    exact hcap
  have hpane : h.prevAlloc ≠ PREV_ALLOC_INIT := by
    obtain ⟨hlopa, hpabnd, h24pa, _⟩ := chainSeg_bounds hch h.prevAlloc hpam
    unfold PREV_ALLOC_INIT
    unfold U64 at hcapU ⊢
    omega
  have hpa8 : h.prevAlloc + 8 ≤ h.brk := by
    obtain ⟨_, hpabnd, h24pa, _⟩ := chainSeg_bounds hch h.prevAlloc hpam
    omega
  have happ := @my_malloc_append_success h (round_up m)
    (by omega) hcap hcapU hpane hpa8
  rw [hbrk] at happ
  set H1 : Heap :=
    { mem := store32 (store32 h.mem (h.hi + 4) (round_up m)) h.hi
        (sizeField h h.prevAlloc),
      lo := h.lo, hi := h.hi + round_up m, brk := h.hi + round_up m,
      cap := h.cap, bins := h.bins, prevAlloc := h.hi } with hH1def
  have hmal : my_malloc h m = (some (h.hi + HEADER_SIZE), H1) := by
    rw [hmal0]
    exact happ
  have hres := my_realloc_eq_move hp0 hm0 hEq hLt hFr hmal
  rw [hres] at hq
  have hqq : h.hi + HEADER_SIZE = q := by simpa using hq
  rw [hres, ← hqq]
  dsimp only
  rw [hH]
  have hbb8 : b + 8 - 8 = b := rfl
  rw [hbb8]
  have hH1mem_lo : ∀ y, y < h.hi → H1.mem y = h.mem y := by
    intro y hy
    rw [hH1def]
    dsimp only
    rw [store32_apply_out (Or.inl hy), store32_apply_out (Or.inl (by omega))]
  have hbsH1b : block_size H1 b = block_size h b := by
    apply bsize_of_sizeField
    unfold sizeField
    exact load32_eq_of_bytes (hH1mem_lo _ (by omega)) (hH1mem_lo _ (by omega))
      (hH1mem_lo _ (by omega)) (hH1mem_lo _ (by omega))
  have hlen : (block_size H1 b + (U64 - 8)) % U64 = block_size h b - 8 := by
    rw [hbsH1b]
    unfold U64
    omega
  rw [hlen]
  set H2 : Heap := heap_memcpy H1 (h.hi + 8) (b + 8) (block_size h b - 8)
    with hH2def
  have hmf2 : my_free H2 (b + 8) = coalesce H2 b := by
    unfold my_free
    rw [if_neg (show ¬ (b + 8 = 0) by omega)]
    simp [hH]
  rw [hmf2]
  have hH2lt : ∀ y, y < h.hi + 8 → H2.mem y = H1.mem y := by
    intro y hy
    rw [hH2def]
    unfold heap_memcpy
    dsimp only
    rw [if_neg (by omega)]
  have hagree : ∀ y, y < h.hi → H2.mem y = h.mem y := by
    intro y hy
    rw [hH2lt y (by omega)]
    exact hH1mem_lo y hy
  have hcpy : H2.mem (h.hi + 8 + j) = H1.mem (b + 8 + j) := by
    show (if h.hi + 8 ≤ h.hi + 8 + j ∧
        h.hi + 8 + j < h.hi + 8 + (block_size h b - 8)
      then H1.mem (b + 8 + (h.hi + 8 + j - (h.hi + 8)))
      else H1.mem (h.hi + 8 + j)) = H1.mem (b + 8 + j)
    have harg : h.hi + 8 + j - (h.hi + 8) = j := by omega
    rw [harg]
    split
    · rfl
    · rename_i hc
      exact absurd ⟨by omega, by omega⟩ hc
  have hH1pj : H1.mem (b + 8 + j) = h.mem (b + 8 + j) :=
    hH1mem_lo _ (by omega)
  have hsfT : ∀ x ∈ ts1 ++ b :: ts2, sizeField H2 x = sizeField h x := by
    intro x hx
    obtain ⟨_, hbd, h24, _⟩ := chainSeg_bounds hch x hx
    unfold sizeField
    exact load32_eq_of_bytes (hagree _ (by omega)) (hagree _ (by omega))
      (hagree _ (by omega)) (hagree _ (by omega))
  have hpsT : ∀ x ∈ ts1 ++ b :: ts2, prevSizeField H2 x = prevSizeField h x := by
    intro x hx
    obtain ⟨_, hbd, h24, _⟩ := chainSeg_bounds hch x hx
    unfold prevSizeField
    exact load32_eq_of_bytes (hagree _ (by omega)) (hagree _ (by omega))
      (hagree _ (by omega)) (hagree _ (by omega))
  have hbsT : ∀ x ∈ ts1 ++ b :: ts2, block_size H2 x = block_size h x :=
    fun x hx => bsize_of_sizeField (hsfT x hx)
  have hsf_new : sizeField H2 h.hi = round_up m := by
    unfold sizeField
    rw [load32_eq_of_bytes (hH2lt _ (by omega)) (hH2lt _ (by omega))
      (hH2lt _ (by omega)) (hH2lt _ (by omega))]
    rw [hH1def]
    dsimp only
    rw [load32_store32_disj (Or.inr (by omega)), load32_store32_self]
    exact hSmod
  have hps_new : prevSizeField H2 h.hi = sizeField h h.prevAlloc := by
    unfold prevSizeField
    rw [load32_eq_of_bytes (hH2lt _ (by omega)) (hH2lt _ (by omega))
      (hH2lt _ (by omega)) (hH2lt _ (by omega))]
    rw [hH1def]
    dsimp only
    rw [load32_store32_self]
    have := sizeField_lt (h := h) (b := h.prevAlloc)
    unfold sizeField at this ⊢
    unfold U32 at this ⊢
    omega
  have hbs_new : block_size H2 h.hi = round_up m := by
    unfold block_size
    rw [hsf_new]
    omega
  have hfree_new : block_is_free H2 h.hi = false := by
    unfold block_is_free
    rw [hsf_new]
    have hz : round_up m % 2 = 0 := by omega
    rw [hz]
    rfl
  have hseg_new : chainSeg H2 [h.hi] h.hi (h.hi + round_up m) = true := by
    have h24S : 24 ≤ round_up m := by omega
    simp [chainSeg, hbs_new, Nat.ble_eq, hS8, h24S]
  have hchH2old : chainSeg H2 (ts1 ++ b :: ts2) h.lo h.hi = true :=
    chainSeg_congr hbsT hch
  have hcomb : chainSeg H2 (ts1 ++ b :: (ts2 ++ [h.hi])) h.lo
      (h.hi + round_up m) = true := by
    have hcb := chainSeg_append_intro hchH2old hseg_new
    simpa using hcb
  have hlast_pa : ∀ x ∈ (ts1 ++ b :: ts2).getLast?, x = h.prevAlloc := by
    intro x hx
    have hxm := getLast?_mem_list hx
    have hxe := chainSeg_last h (ts1 ++ b :: ts2) h.lo h.hi hch x hx
    obtain ⟨_, hxb, h24x, _⟩ := chainSeg_bounds hch x hxm
    obtain ⟨_, hpb, h24p, _⟩ := chainSeg_bounds hch h.prevAlloc hpam
    have hpe : h.prevAlloc + block_size h h.prevAlloc = h.hi := hpafr
    rcases chainSeg_disjoint h (ts1 ++ b :: ts2) h.lo h.hi x h.prevAlloc hch
      hxm hpam with he | hle | hle
    · exact he
    · omega
    · omega
  have hshape : ts1 ++ b :: (ts2 ++ [h.hi]) =
      (ts1 ++ b :: ts2) ++ [h.hi] := by simp
  have hmir2 : MirrorOk H2 (ts1 ++ b :: (ts2 ++ [h.hi])) := by
    unfold MirrorOk
    rw [hshape]
    refine List.chain'_append.2 ⟨?_, List.chain'_singleton _, ?_⟩
    · exact chain'_congr_mem (fun x hx y hy hr => by
        rw [hpsT y hy, hsfT x hx]
        exact hr) hmir
    · intro x hx y hy
      have hy' : h.hi = y := by simpa using hy
      subst hy'
      have hx' := hlast_pa x hx
      subst hx'
      rw [hps_new, hsfT h.prevAlloc hpam]
  have hnadj2 : NoAdjFree H2 (ts1 ++ b :: (ts2 ++ [h.hi])) := by
    unfold NoAdjFree
    rw [hshape]
    refine List.chain'_append.2 ⟨?_, List.chain'_singleton _, ?_⟩
    · exact chain'_congr_mem (fun x hx y hy hr => by
        rw [free_of_sizeField (hsfT x hx), free_of_sizeField (hsfT y hy)]
        exact hr) hnadj
    · intro x hx y hy
      have hy' : h.hi = y := by simpa using hy
      subst hy'
      intro hcon
      rw [hfree_new] at hcon
      simp at hcon
  have hhz2 : HeadZero H2 (ts1 ++ b :: (ts2 ++ [h.hi])) := by
    intro y hy
    cases ts1 with
    | nil =>
      have hy' : b = y := by simpa using hy
      subst hy'
      rw [hpsT b hbmem]
      exact hhz b (by simp)
    | cons a ts1' =>
      have hy' : a = y := by simpa using hy
      subst hy'
      have ham : a ∈ (a :: ts1') ++ b :: ts2 := by simp
      rw [hpsT a ham]
      exact hhz a (by simp)
  have hfree2 : block_is_free H2 b = false := by
    rw [free_of_sizeField (hsfT b hbmem)]
    exact hfree_b
  have hspan2 : H2.hi < H2.lo + 2 ^ 28 := by
    show h.hi + round_up m < h.lo + 2 ^ 28
    omega
  obtain ⟨M1, M2, M3, M4, M5, M6, M7, M8, M9, M10, M11, M12⟩ :=
    coalesce_spec H2 ts1 (ts2 ++ [h.hi]) b hcomb hmir2 hnadj2 hhz2 hfree2
      hspan2
  have hbsb2 : block_size H2 b = block_size h b := hbsT b hbmem
  have hFr' : ¬ right h b = h.hi := hFr
  have hrne : b + block_size h b ≠ h.hi := fun he => hFr' he
  have hblt : b + block_size h b < h.hi := by
    rcases Nat.lt_or_ge (b + block_size h b) h.hi with hl | hg
    · exact hl
    · exact absurd (by omega : b + block_size h b = h.hi) hrne
  have hFHle : freedHi H2 b ≤ h.hi := by
    unfold freedHi
    by_cases hCR2 : right H2 b < H2.hi ∧ block_is_free H2 (right H2 b) = true
    · rw [if_pos hCR2]
      have hr2 : right H2 b = b + block_size h b := by
        unfold right
        rw [hbsb2]
      obtain ⟨L1, L2, hLsplit⟩ := chainSeg_adjacent h (ts1 ++ b :: ts2)
        h.lo h.hi b hch hbmem hblt
      have hc0 : b + block_size h b ∈ ts1 ++ b :: ts2 := by
        rw [hLsplit]
        simp
      obtain ⟨_, hcb, _, _⟩ := chainSeg_bounds hch (b + block_size h b) hc0
      rw [hr2, hbsT _ hc0]
      omega
    · rw [if_neg hCR2]
      unfold right
      rw [hbsb2]
      omega
  rw [M7 (h.hi + 8 + j) (Or.inr (by omega))]
  rw [hcpy, hH1pj]

theorem c7_realloc_data_preservation_witness :
    chainSeg hC3 ([] ++ 64 :: [88]) hC3.lo hC3.hi = true ∧
    hC3.bins = List.replicate NUM_BINS [] ∧
    (my_realloc hC3 (64 + HEADER_SIZE) 16).1 = some 72 ∧
    (my_realloc hC3 (64 + HEADER_SIZE) 16).2.mem (72 + 0) =
      hC3.mem (64 + HEADER_SIZE + 0) :=
  ⟨by decide, by decide, by decide,
    c7_realloc_data_preservation hC3 [] [88] 64 16 16 (by decide)
      (by
        unfold MirrorOk
        exact List.chain'_cons.2 ⟨by decide, List.chain'_singleton _⟩)
      (by
        unfold NoAdjFree
        exact List.chain'_cons.2 ⟨by decide, List.chain'_singleton _⟩)
      (by
        intro b hb
        have hb' : (64 : Nat) = b := by simpa using hb
        subst hb'
        decide)
      (by decide) (by decide) (by decide) (by decide) (by decide) (by decide)
      (by decide) (by decide) (by decide) (by decide) (by decide)
      72 (by decide) 0 (by decide) (by decide)⟩
